import Mathlib

/-!
Verification of the codeowners-rs multi-pattern matcher core.

Shallow embedding of the Rust sources:
  * `src/codeowners-rs/src/patternset/nfa.rs`     (data model, transition conditions)
  * `src/codeowners-rs/src/patternset/builder.rs` (pattern compilation, `Builder::add`)
  * `src/codeowners-rs/src/patternset/matcher.rs` (`Matcher::matching_patterns`, prefix cache)
  * `src/codeowners-rs/src/ruleset.rs`            (`RuleSet`, owner classification)
  * `src/codeowners-rs/src/parser.rs`             (CODEOWNERS parser)

Modelling conventions:
  * Rust `String` / `&str` values are modelled as `List Char` (`Str` below), so
    that all operations are structurally recursive and kernel-executable.
  * `StateId(u32)` and `usize` are modelled as `Nat`; ids are vector indices
    produced from `Vec::len`, and all indexing proved in bounds stays far below
    `2^32` growth per call.
  * Paths are modelled as the list of their `/`-separated components, which is
    what `Path::iter` produces for the relative paths the matcher receives.
  * A `Vec` index expression `v[i]` is modelled with a defaulting lookup
    (`List.getD`); in-boundedness is proved separately where a claim needs it.
-/

namespace CO

/-- Rust strings modelled as lists of characters. -/
abbrev Str := List Char

/-- The segment `"*"`. -/
def star : Str := ['*']

/-- The segment `"**"`. -/
def star2 : Str := ['*', '*']

/-- Rust `pattern.split('/')` (keeps empty pieces; the empty string yields
one empty piece). -/
def splitSlash : Str → List Str
  | [] => [[]]
  | c :: rest =>
    if c = '/' then [] :: splitSlash rest
    else
      match splitSlash rest with
      | [] => [[c]]
      | s :: ss => (c :: s) :: ss

/-- Rust `pattern.strip_prefix('/')`: strips one leading slash, reporting
whether one was present (`builder.rs` lines 43-46). -/
def stripLead (p : Str) : Str × Bool :=
  match p with
  | [] => ([], false)
  | c :: rest => if c = '/' then (rest, true) else (c :: rest, false)

/-- Rust `pattern.strip_suffix('/')`: strips one trailing slash, reporting
whether one was present (`builder.rs` lines 50-53). -/
def stripTrail (p : Str) : Str × Bool :=
  if p.getLast? = some '/' then (p.dropLast, true) else (p, false)

/-- Rust `has_wildcard` from `nfa.rs`: any `*` or `?` among the chars. -/
def hasWildcard (cs : List Char) : Bool :=
  cs.any fun c => c = '*' || c = '?'

/-- Rust `trim_end_matches('*')`. -/
def trimEndStars (cs : Str) : Str :=
  (cs.reverse.dropWhile (fun c => c = '*')).reverse

/-- Rust `trim_start_matches('*')`. -/
def trimStartStars (cs : Str) : Str :=
  cs.dropWhile fun c => c = '*'

/-- Rust `trim_matches('*')`. -/
def trimStars (cs : Str) : Str :=
  trimStartStars (trimEndStars cs)

/-- Rust `memchr::memmem::find(...).is_some()`: substring occurrence. -/
def isSubstring (needle hay : Str) : Bool :=
  (List.range (hay.length + 1)).any fun k => needle.isPrefixOf (hay.drop k)

/-- Semantics of the anchored regex produced by `pattern_to_regex` in
`nfa.rs`: `*` becomes `[^/]*`, `?` becomes `[^/]`, every other character
(escaped if a regex metacharacter) matches itself literally.  Structural
recursion on the glob; the `*` case tries every split of the candidate. -/
def globMatch : Str → Str → Bool
  | [], cs => cs.isEmpty
  | '*' :: ps, cs =>
    (List.range (cs.length + 1)).any fun k =>
      ((cs.take k).all fun c => c ≠ '/') && globMatch ps (cs.drop k)
  | '?' :: ps, cs =>
    match cs with
    | c :: cs' => decide (c ≠ '/') && globMatch ps cs'
    | [] => false
  | p :: ps, cs =>
    match cs with
    | c :: cs' => p = c && globMatch ps cs'
    | [] => false

/-- `TransitionCondition` from `nfa.rs`. -/
inductive TransitionCondition : Type
  | Unconditional
  | Literal
  | Pre
  | Suf
  | Contains
  | Rgx
deriving DecidableEq

/-- `TransitionCondition::new` from `nfa.rs`: classify a segment glob.
`chars.next()` inspects the first char, `chars.next_back()` the last of the
remainder, `has_wildcard` the middle. -/
def TransitionCondition.make (glob : Str) : TransitionCondition :=
  if glob = star then .Unconditional
  else
    let leading_star := glob.head? == some '*'
    let rest := glob.drop 1
    let trailing_star := rest.getLast? == some '*'
    let middle := rest.dropLast
    match leading_star, trailing_star, hasWildcard middle with
    | false, false, false => .Literal
    | false, true, false => .Pre
    | true, false, false => .Suf
    | true, true, false => .Contains
    | _, _, _ => .Rgx

/-- `TransitionCondition::is_match` from `nfa.rs`. -/
def TransitionCondition.isMatch : TransitionCondition → Str → Str → Bool
  | .Unconditional, _, _ => true
  | .Literal, pat, cand => pat = cand
  | .Pre, pat, cand => (trimEndStars pat).isPrefixOf cand
  | .Suf, pat, cand => (trimStartStars pat).isSuffixOf cand
  | .Contains, pat, cand => isSubstring (trimStars pat) cand
  | .Rgx, pat, cand => globMatch pat cand

/-- `Transition::is_match`: the condition is precomputed from the segment at
build time (`Transition::new`), so matching is a function of the stored
segment glob and the candidate. -/
def segMatch (pat cand : Str) : Bool :=
  (TransitionCondition.make pat).isMatch pat cand

/-- `Transition` from `nfa.rs` (the `matcher` field is the function of
`path_segment` given by `segMatch`). -/
structure Transition where
  path_segment : Str
  target : Nat
deriving DecidableEq

/-- `State` from `nfa.rs`. -/
structure State where
  terminal_for_patterns : List Nat
  transitions : List Transition
  epsilon_transition : Option Nat
deriving DecidableEq

/-- `State::new`. -/
def State.new : State := ⟨[], [], none⟩

instance : Inhabited State := ⟨State.new⟩

/-- `State::is_terminal`. -/
def State.isTerminal (s : State) : Bool :=
  !s.terminal_for_patterns.isEmpty

/-- `State::add_transition` (a `Vec::push`). -/
def State.pushTransition (s : State) (t : Transition) : State :=
  { s with transitions := s.transitions ++ [t] }

/-- `State::mark_as_terminal` (a `Vec::push`). -/
def State.markAsTerminal (s : State) (pid : Nat) : State :=
  { s with terminal_for_patterns := s.terminal_for_patterns ++ [pid] }

/-- `Nfa` from `nfa.rs`: a dense vector of states; state 0 is `START_STATE`. -/
structure Nfa where
  states : List State
deriving DecidableEq

/-- `Nfa::new`. -/
def Nfa.new : Nfa := ⟨[State.new]⟩

/-- `Nfa::state` (vector indexing; all uses are proved in bounds). -/
def Nfa.state (n : Nfa) (id : Nat) : State :=
  n.states.getD id State.new

/-- Replace the state at `id` by `f` of it, modelling `Nfa::state_mut`
followed by a mutation. -/
def Nfa.modifyState (n : Nfa) (id : Nat) (f : State → State) : Nfa :=
  ⟨n.states.set id (f (n.state id))⟩

/-- `Nfa::add_state`. -/
def Nfa.addState (n : Nfa) : Nfa × Nat :=
  (⟨n.states ++ [State.new]⟩, n.states.length)

/-- `Nfa::transitions_from`. -/
def Nfa.transitionsFrom (n : Nfa) (id : Nat) : List Transition :=
  (n.state id).transitions

/-- `Nfa::epsilon_transitions_from`. -/
def Nfa.epsilonFrom (n : Nfa) (id : Nat) : Option Nat :=
  (n.state id).epsilon_transition

/-- `Builder::add_transition` from `builder.rs`: reuse an existing non-self
transition with the same segment, else allocate a fresh target state. -/
def Nfa.addTransition (n : Nfa) (from_id : Nat) (segment : Str) : Nfa × Nat :=
  match (n.transitionsFrom from_id).find? (fun t => t.path_segment = segment && t.target ≠ from_id) with
  | some t => (n, t.target)
  | none =>
    let a := n.addState
    (a.1.modifyState from_id (fun s => s.pushTransition ⟨segment, a.2⟩), a.2)

/-- `Builder::add_epsilon_transition` from `builder.rs`: a state with a `*`
self-loop absorbs the epsilon; an existing epsilon target is reused;
otherwise a fresh self-looping state becomes the epsilon target. -/
def Nfa.addEpsilonTransition (n : Nfa) (from_id : Nat) : Nfa × Nat :=
  if (n.transitionsFrom from_id).any (fun t => t.path_segment = star && t.target = from_id) then
    (n, from_id)
  else
    match (n.state from_id).epsilon_transition with
    | some to_id => (n, to_id)
    | none =>
      let a := n.addState
      let n1 := a.1.modifyState a.2 (fun s => s.pushTransition ⟨star, a.2⟩)
      let n2 := n1.modifyState from_id (fun s => { s with epsilon_transition := some a.2 })
      (n2, a.2)

/-- `Builder` from `builder.rs`. -/
structure Builder where
  nfa : Nfa
  next_pattern_id : Nat
deriving DecidableEq

/-- `Builder::new`. -/
def Builder.new : Builder := ⟨Nfa.new, 0⟩

/-- `builder.rs` lines 58-62: all patterns are left-anchored unless they are a
single component with no leading slash, in which case an epsilon edge is
prepended at the start state. -/
def Builder.startState (nfa : Nfa) (leading_slash : Bool) (segments : List Str) : Nfa × Nat :=
  if !leading_slash && segments.length = 1 then nfa.addEpsilonTransition 0
  else (nfa, 0)

/-- One step of the fold in `Builder::add` lines 64-71: `**` becomes an
epsilon edge, anything else a segment transition. -/
def Builder.addSegment (acc : Nfa × Nat) (segment : Str) : Nfa × Nat :=
  if segment = star2 then acc.1.addEpsilonTransition acc.2
  else acc.1.addTransition acc.2 segment

/-- `Builder::add` lines 73-89: the extra `*` transition for a trailing
slash or terminal `**`, then the final epsilon edge that makes every
pattern whose final segment is not `*` match recursively. -/
def Builder.addTail (n : Nfa) (k : Nat) (trailing : Bool) (segments : List Str) : Nfa × Nat :=
  let g := if trailing || segments.getLast? = some star2
           then n.addTransition k star
           else (n, k)
  match segments.getLast? with
  | some last => if last ≠ star then g.1.addEpsilonTransition g.2 else g
  | none => g

/-- `Builder::add` from `builder.rs`. -/
def Builder.add (b : Builder) (pattern : Str) : Builder × Nat :=
  let pid := b.next_pattern_id
  let s1 := stripLead pattern
  let s2 := stripTrail s1.1
  let segments := splitSlash s2.1
  let st := Builder.startState b.nfa s1.2 segments
  let f := segments.foldl Builder.addSegment st
  let h := Builder.addTail f.1 f.2 s2.2 segments
  (⟨h.1.modifyState h.2 (fun s => s.markAsTerminal pid), pid + 1⟩, pid)

/-- Compile a list of patterns with one `Builder`, as `RuleSet::new` does. -/
def buildNfa (pats : List Str) : Nfa :=
  (pats.foldl (fun b p => (b.add p).1) Builder.new).nfa

/-- `Nfa::initial_states`: the start state plus its epsilon target, if any. -/
def Nfa.initialStates (n : Nfa) : List Nat :=
  match (n.state 0).epsilon_transition with
  | some e => [0, e]
  | none => [0]

/-- The body of one matching step (`Matcher::next_states` lines 84-99): follow
every matching transition from every active state, then extend with the
epsilon targets of the newly reached states. -/
def Nfa.stepStates (n : Nfa) (states : List Nat) (segment : Str) : List Nat :=
  let next := states.flatMap fun sid =>
    ((n.transitionsFrom sid).filter fun t => segMatch t.path_segment segment).map Transition.target
  next ++ next.filterMap fun sid => n.epsilonFrom sid

/-- Cache-free form of `Matcher::next_states`: the source recursion peels the
last segment and steps it after resolving the prefix, which is exactly a left
fold of `stepStates` over the segments. -/
def Nfa.nextStates (n : Nfa) (segs : List Str) (start : List Nat) : List Nat :=
  segs.foldl n.stepStates start

/-- The final active states of a path query. -/
def Nfa.finalStates (n : Nfa) (segs : List Str) : List Nat :=
  n.nextStates segs n.initialStates

/-- `Matcher::matching_patterns` (cache-free form): union the pattern ids of
the terminal states among the final active states. -/
def Nfa.matchingPatterns (n : Nfa) (segs : List Str) : List Nat :=
  (n.finalStates segs).flatMap fun sid =>
    if (n.state sid).isTerminal then (n.state sid).terminal_for_patterns else []

/-! ## RuleSet (`ruleset.rs`) -/

/-- `OwnerKind` from `ruleset.rs`. -/
inductive OwnerKind : Type
  | User
  | Team
  | Email
deriving DecidableEq

/-- `Owner` from `ruleset.rs`. -/
structure Owner where
  value : Str
  kind : OwnerKind
deriving DecidableEq

/-- `Rule` from `ruleset.rs`. -/
structure Rule where
  pattern : Str
  owners : List Owner
deriving DecidableEq

instance : Inhabited Rule := ⟨⟨[], []⟩⟩

/-- `RuleSet` from `ruleset.rs`: the rules plus the matcher compiled from
their patterns. -/
structure RuleSet where
  rules : List Rule
  nfa : Nfa
deriving DecidableEq

/-- `RuleSet::new`: compile every rule's pattern, in order. -/
def RuleSet.new (rules : List Rule) : RuleSet :=
  ⟨rules, buildNfa (rules.map Rule.pattern)⟩

/-- Rust `Iterator::max` on a vector of `usize`. -/
def listMax : List Nat → Option Nat
  | [] => none
  | x :: xs => some (xs.foldl max x)

/-- `RuleSet::matching_rule`: the rule indexed by the largest matching
pattern id (the vector indexing is modelled with a defaulting lookup;
`ruleIndexInBounds` shows it is always within bounds). -/
def RuleSet.matchingRule (rs : RuleSet) (segs : List Str) : Option Rule :=
  (listMax (rs.nfa.matchingPatterns segs)).map fun idx => rs.rules.getD idx default

/-- `RuleSet::owners`: the winning rule's owners, or `none` when there is no
winning rule or its owner list is empty. -/
def RuleSet.owners (rs : RuleSet) (segs : List Str) : Option (List Owner) :=
  (rs.matchingRule segs).bind fun rule =>
    if rule.owners.isEmpty then none else some rule.owners

/-- `RuleSet::all_matching_rules`. -/
def RuleSet.allMatchingRules (rs : RuleSet) (segs : List Str) : List (Nat × Rule) :=
  (rs.nfa.matchingPatterns segs).map fun idx => (idx, rs.rules.getD idx default)

/-! ## Basic state-access lemmas -/

lemma Nfa.state_oob (n : Nfa) (j : Nat) (h : n.states.length ≤ j) :
    n.state j = State.new :=
  List.getD_eq_default _ _ h

@[simp] lemma Nfa.length_modifyState (n : Nfa) (id : Nat) (f : State → State) :
    (n.modifyState id f).states.length = n.states.length :=
  List.length_set _ _ _

@[simp] lemma Nfa.length_addState (n : Nfa) :
    n.addState.1.states.length = n.states.length + 1 := by
  simp [Nfa.addState]

lemma Nfa.state_modify_self (n : Nfa) (id : Nat) (f : State → State)
    (h : id < n.states.length) :
    (n.modifyState id f).state id = f (n.state id) := by
  simp [Nfa.modifyState, Nfa.state, List.getD, List.getElem?_set_self', h]

lemma Nfa.state_modify_ne (n : Nfa) (id : Nat) (f : State → State) (j : Nat)
    (h : j ≠ id) :
    (n.modifyState id f).state j = n.state j := by
  simp [Nfa.modifyState, Nfa.state, List.getD, List.getElem?_set_ne (Ne.symm h)]

lemma Nfa.state_addState (n : Nfa) (j : Nat) :
    n.addState.1.state j = n.state j := by
  rcases lt_trichotomy j n.states.length with h | h | h
  · simp [Nfa.addState, Nfa.state, List.getD, List.getElem?_append_left h]
  · subst h
    rw [Nfa.state_oob n _ (le_refl _)]
    simp [Nfa.addState, Nfa.state, List.getD]
  · rw [Nfa.state_oob n _ (le_of_lt h), Nfa.state_oob]
    simp [Nfa.addState]
    omega

/-! ## Structural invariants of built NFAs -/

/-- The state has a `*` self-loop (the compiled form of `**`). -/
def selfLoop (n : Nfa) (sid : Nat) : Prop :=
  (⟨star, sid⟩ : Transition) ∈ (n.state sid).transitions

/-- Structural invariants maintained by `Builder::add` (spec §3): per-state
transition-label uniqueness apart from the `*` pair on epsilon-target states,
self-loops only on epsilon-target states and labelled `*`, epsilon targets
self-looping, and all ids in range. -/
structure NfaInv (n : Nfa) : Prop where
  self_star : ∀ sid t, t ∈ (n.state sid).transitions → t.target = sid →
      t.path_segment = star
  nonself_unique : ∀ sid g,
      ((n.state sid).transitions.filter fun t =>
        t.path_segment = g && t.target ≠ sid).length ≤ 1
  self_unique : ∀ sid,
      ((n.state sid).transitions.filter fun t => t.target = sid).length ≤ 1
  self_eps_target : ∀ sid t, t ∈ (n.state sid).transitions → t.target = sid →
      ∃ src, (n.state src).epsilon_transition = some sid
  eps_self_loop : ∀ sid e, (n.state sid).epsilon_transition = some e → selfLoop n e
  target_lt : ∀ sid t, t ∈ (n.state sid).transitions → t.target < n.states.length
  eps_lt : ∀ sid e, (n.state sid).epsilon_transition = some e → e < n.states.length

/-- All terminal pattern ids are below `k`. -/
def TermBound (n : Nfa) (k : Nat) : Prop :=
  ∀ sid id, id ∈ (n.state sid).terminal_for_patterns → id < k

/-- Monotone evolution of an NFA during building: states are only appended,
transitions and terminal marks only pushed, epsilon targets only set when
absent. -/
structure Ext (n n' : Nfa) : Prop where
  len_le : n.states.length ≤ n'.states.length
  trans_le : ∀ sid t, t ∈ (n.state sid).transitions → t ∈ (n'.state sid).transitions
  eps_le : ∀ sid e, (n.state sid).epsilon_transition = some e →
      (n'.state sid).epsilon_transition = some e
  term_le : ∀ sid id, id ∈ (n.state sid).terminal_for_patterns →
      id ∈ (n'.state sid).terminal_for_patterns

lemma Ext.rfl (n : Nfa) : Ext n n :=
  ⟨le_refl _, fun _ _ h => h, fun _ _ h => h, fun _ _ h => h⟩

lemma Ext.comp {n1 n2 n3 : Nfa} (h1 : Ext n1 n2) (h2 : Ext n2 n3) : Ext n1 n3 :=
  ⟨le_trans h1.len_le h2.len_le,
   fun s t h => h2.trans_le s t (h1.trans_le s t h),
   fun s e h => h2.eps_le s e (h1.eps_le s e h),
   fun s i h => h2.term_le s i (h1.term_le s i h)⟩

lemma selfLoop_mono {n n' : Nfa} (h : Ext n n') {sid : Nat} (hs : selfLoop n sid) :
    selfLoop n' sid :=
  h.trans_le sid _ hs

lemma nfaInv_new : NfaInv Nfa.new := by
  have hst : ∀ j, Nfa.new.state j = State.new := by
    intro j
    cases j with
    | zero => rfl
    | succ j => exact Nfa.state_oob _ _ (by simp [Nfa.new])
  constructor <;> intro sid <;> simp [hst, State.new, selfLoop]

lemma termBound_new (k : Nat) : TermBound Nfa.new k := by
  intro sid id h
  have hst : ∀ j, Nfa.new.state j = State.new := by
    intro j
    cases j with
    | zero => rfl
    | succ j => exact Nfa.state_oob _ _ (by simp [Nfa.new])
  rw [hst] at h
  cases h

/-! ## Behaviour of the two transition-adding primitives -/

@[simp] lemma State.pushTransition_transitions (s : State) (t : Transition) :
    (s.pushTransition t).transitions = s.transitions ++ [t] := rfl

@[simp] lemma State.pushTransition_eps (s : State) (t : Transition) :
    (s.pushTransition t).epsilon_transition = s.epsilon_transition := rfl

@[simp] lemma State.pushTransition_terminal (s : State) (t : Transition) :
    (s.pushTransition t).terminal_for_patterns = s.terminal_for_patterns := rfl

@[simp] lemma State.markAsTerminal_transitions (s : State) (pid : Nat) :
    (s.markAsTerminal pid).transitions = s.transitions := rfl

@[simp] lemma State.markAsTerminal_eps (s : State) (pid : Nat) :
    (s.markAsTerminal pid).epsilon_transition = s.epsilon_transition := rfl

@[simp] lemma State.markAsTerminal_terminal (s : State) (pid : Nat) :
    (s.markAsTerminal pid).terminal_for_patterns = s.terminal_for_patterns ++ [pid] := rfl

/-- State lookup after allocating a fresh state and updating state `f`. -/
lemma create_state_eq (n : Nfa) (f : Nat) (upd : State → State)
    (hf : f < n.states.length + 1) (j : Nat) :
    (n.addState.1.modifyState f upd).state j =
      if j = f then upd (n.state f) else n.state j := by
  by_cases h : j = f
  · subst h
    rw [Nfa.state_modify_self _ _ _ (by simpa using hf), Nfa.state_addState]
    simp
  · rw [Nfa.state_modify_ne _ _ _ _ h, Nfa.state_addState]
    simp [h]

/-- Case analysis of `Builder::add_transition`: either an existing non-self
transition with the same label is reused, or a fresh state is allocated. -/
lemma addTransition_cases (n : Nfa) (f : Nat) (g : Str) :
    (∃ t, t ∈ (n.state f).transitions ∧ t.path_segment = g ∧ t.target ≠ f ∧
        n.addTransition f g = (n, t.target)) ∨
    ((∀ t ∈ (n.state f).transitions, ¬(t.path_segment = g ∧ t.target ≠ f)) ∧
        n.addTransition f g =
          (n.addState.1.modifyState f
              (fun s => s.pushTransition ⟨g, n.states.length⟩),
           n.states.length)) := by
  rw [Nfa.addTransition]
  cases hfind : (n.transitionsFrom f).find?
      (fun t => t.path_segment = g && t.target ≠ f) with
  | none =>
    right
    refine ⟨?_, rfl⟩
    intro t ht hc
    have := List.find?_eq_none.mp hfind t ht
    simp [hc.1, hc.2] at this
  | some t =>
    left
    have := List.find?_some hfind
    simp only [Bool.and_eq_true, decide_eq_true_eq] at this
    exact ⟨t, List.mem_of_find?_eq_some hfind, this.1, this.2, rfl⟩

/-- Case analysis of `Builder::add_epsilon_transition`. -/
lemma addEpsilonTransition_cases (n : Nfa) (f : Nat) :
    (selfLoop n f ∧ n.addEpsilonTransition f = (n, f)) ∨
    (¬ selfLoop n f ∧
      ∃ e, (n.state f).epsilon_transition = some e ∧ n.addEpsilonTransition f = (n, e)) ∨
    (¬ selfLoop n f ∧ (n.state f).epsilon_transition = none ∧
      n.addEpsilonTransition f =
        ((n.addState.1.modifyState n.states.length
            (fun s => s.pushTransition ⟨star, n.states.length⟩)).modifyState f
            (fun s => { s with epsilon_transition := some n.states.length }),
         n.states.length)) := by
  rw [Nfa.addEpsilonTransition]
  by_cases hany : (n.transitionsFrom f).any
      (fun t => t.path_segment = star && t.target = f)
  · left
    obtain ⟨t, ht, hcond⟩ := List.any_eq_true.mp hany
    simp only [Bool.and_eq_true, decide_eq_true_eq] at hcond
    have : t = ⟨star, f⟩ := by
      cases t
      simp only [Transition.mk.injEq]
      exact hcond
    rw [this] at ht
    exact ⟨ht, by rw [if_pos hany]⟩
  · have hno : ¬ selfLoop n f := by
      intro hsl
      exact hany (List.any_eq_true.mpr ⟨⟨star, f⟩, hsl, by simp⟩)
    rw [if_neg hany]
    cases heps : (n.state f).epsilon_transition with
    | some e => exact Or.inr (Or.inl ⟨hno, e, rfl, rfl⟩)
    | none => exact Or.inr (Or.inr ⟨hno, rfl, rfl⟩)

/-- `Builder::add_transition` preserves the structural invariants, only
extends the NFA, returns an in-range state id, and leaves every terminal
list unchanged. -/
lemma addTransition_ok (n : Nfa) (f : Nat) (g : Str)
    (inv : NfaInv n) (hf : f < n.states.length) :
    NfaInv (n.addTransition f g).1 ∧
    Ext n (n.addTransition f g).1 ∧
    (n.addTransition f g).2 < (n.addTransition f g).1.states.length ∧
    n.states.length ≤ (n.addTransition f g).1.states.length ∧
    (∀ sid, ((n.addTransition f g).1.state sid).terminal_for_patterns =
        (n.state sid).terminal_for_patterns) := by
  rcases addTransition_cases n f g with ⟨t, ht, hseg, htgt, heq⟩ | ⟨hnone, heq⟩
  · rw [heq]
    exact ⟨inv, Ext.rfl n, inv.target_lt f t ht, le_refl _, fun _ => rfl⟩
  · rw [heq]
    set L := n.states.length with hL
    have hstate : ∀ j, (n.addState.1.modifyState f
          (fun s => s.pushTransition ⟨g, L⟩)).state j =
        if j = f then (n.state f).pushTransition ⟨g, L⟩ else n.state j :=
      fun j => create_state_eq n f _ (by omega) j
    have hlen : ((n.addState.1.modifyState f
        (fun s => s.pushTransition ⟨g, L⟩)).states).length = L + 1 := by
      simp
    have hfL : f ≠ L := by omega
    have hmem_char : ∀ j t', t' ∈ ((n.addState.1.modifyState f
          (fun s => s.pushTransition ⟨g, L⟩)).state j).transitions ↔
        (t' ∈ (n.state j).transitions ∨ (j = f ∧ t' = ⟨g, L⟩)) := by
      intro j t'
      rw [hstate]
      by_cases hs : j = f
      · rw [if_pos hs, State.pushTransition_transitions, List.mem_append, hs]
        simp
      · rw [if_neg hs]
        simp [hs]
    have heps_char : ∀ j, ((n.addState.1.modifyState f
          (fun s => s.pushTransition ⟨g, L⟩)).state j).epsilon_transition =
        (n.state j).epsilon_transition := by
      intro j
      rw [hstate]
      by_cases hs : j = f
      · rw [if_pos hs, State.pushTransition_eps, hs]
      · rw [if_neg hs]
    have hterm_char : ∀ j, ((n.addState.1.modifyState f
          (fun s => s.pushTransition ⟨g, L⟩)).state j).terminal_for_patterns =
        (n.state j).terminal_for_patterns := by
      intro j
      rw [hstate]
      by_cases hs : j = f
      · rw [if_pos hs, State.pushTransition_terminal, hs]
      · rw [if_neg hs]
    refine ⟨?_, ?_, ?_, ?_, ?_⟩
    · constructor
      · intro sid t' hmem htgt'
        rcases (hmem_char sid t').mp hmem with h | ⟨rfl, rfl⟩
        · exact inv.self_star _ _ h htgt'
        · exact absurd htgt' hfL.symm
      · intro sid g'
        rw [hstate]
        by_cases hs : sid = f
        · rw [if_pos hs, State.pushTransition_transitions, List.filter_append, hs]
          by_cases hg : g' = g
          · have hold : (n.state f).transitions.filter
                (fun t => t.path_segment = g' && t.target ≠ f) = [] := by
              rw [List.filter_eq_nil_iff]
              intro u hu
              simp only [Bool.and_eq_true, decide_eq_true_eq, not_and]
              intro h1 h2
              exact hnone u hu ⟨h1.trans (by rw [hg]), h2⟩
            rw [hold, List.nil_append]
            exact le_trans (List.length_filter_le _ _) (by simp)
          · have hnew : (([⟨g, L⟩] : List Transition).filter
                (fun t => t.path_segment = g' && t.target ≠ f)) = [] := by
              simp [Ne.symm hg]
            rw [hnew, List.append_nil]
            exact inv.nonself_unique f g'
        · rw [if_neg hs]
          exact inv.nonself_unique sid g'
      · intro sid
        rw [hstate]
        by_cases hs : sid = f
        · rw [if_pos hs, State.pushTransition_transitions, List.filter_append, hs]
          have hnew : (([⟨g, L⟩] : List Transition).filter
              (fun t => t.target = f)) = [] := by
            simp [hfL.symm]
          rw [hnew, List.append_nil]
          exact inv.self_unique f
        · rw [if_neg hs]
          exact inv.self_unique sid
      · intro sid t' hmem htgt'
        have hold : t' ∈ (n.state sid).transitions := by
          rcases (hmem_char sid t').mp hmem with h | ⟨rfl, rfl⟩
          · exact h
          · exact absurd htgt' hfL.symm
        obtain ⟨src, hsrc⟩ := inv.self_eps_target sid t' hold htgt'
        exact ⟨src, by rw [heps_char]; exact hsrc⟩
      · intro sid e heps
        rw [heps_char] at heps
        have := inv.eps_self_loop sid e heps
        rw [selfLoop] at this ⊢
        exact (hmem_char e _).mpr (Or.inl this)
      · intro sid t' hmem
        rw [hlen]
        rcases (hmem_char sid t').mp hmem with h | ⟨rfl, rfl⟩
        · exact lt_trans (inv.target_lt _ _ h) (by omega)
        · simp
      · intro sid e heps
        rw [heps_char] at heps
        rw [hlen]
        exact lt_trans (inv.eps_lt _ _ heps) (by omega)
    · refine ⟨by rw [hlen]; omega, ?_, ?_, ?_⟩
      · intro sid t' h
        exact (hmem_char sid t').mpr (Or.inl h)
      · intro sid e h
        rw [heps_char]
        exact h
      · intro sid i h
        rw [hterm_char]
        exact h
    · rw [hlen]; omega
    · rw [hlen]; omega
    · exact hterm_char

/-- `Builder::add_epsilon_transition` preserves the structural invariants,
only extends the NFA, returns an in-range state id that carries a `*`
self-loop, and leaves every terminal list unchanged. -/
lemma addEpsilonTransition_ok (n : Nfa) (f : Nat)
    (inv : NfaInv n) (hf : f < n.states.length) :
    NfaInv (n.addEpsilonTransition f).1 ∧
    Ext n (n.addEpsilonTransition f).1 ∧
    (n.addEpsilonTransition f).2 < (n.addEpsilonTransition f).1.states.length ∧
    n.states.length ≤ (n.addEpsilonTransition f).1.states.length ∧
    (∀ sid, ((n.addEpsilonTransition f).1.state sid).terminal_for_patterns =
        (n.state sid).terminal_for_patterns) ∧
    selfLoop (n.addEpsilonTransition f).1 (n.addEpsilonTransition f).2 := by
  rcases addEpsilonTransition_cases n f with ⟨hsl, heq⟩ | ⟨-, e, heps, heq⟩ | ⟨hnsl, heps, heq⟩
  · rw [heq]
    exact ⟨inv, Ext.rfl n, hf, le_refl _, fun _ => rfl, hsl⟩
  · rw [heq]
    exact ⟨inv, Ext.rfl n, inv.eps_lt f e heps, le_refl _, fun _ => rfl,
      inv.eps_self_loop f e heps⟩
  · rw [heq]
    set L := n.states.length with hL
    set n' := (n.addState.1.modifyState L
        (fun s => s.pushTransition ⟨star, L⟩)).modifyState f
        (fun s => { s with epsilon_transition := some L }) with hn'
    have hfL : f ≠ L := by omega
    have hmid : ∀ j, (n.addState.1.modifyState L
          (fun s => s.pushTransition ⟨star, L⟩)).state j =
        if j = L then ⟨[], [⟨star, L⟩], none⟩ else n.state j := by
      intro j
      rw [create_state_eq n L _ (by omega) j]
      by_cases h : j = L
      · rw [if_pos h, if_pos h, Nfa.state_oob n L (le_refl _)]
        rfl
      · rw [if_neg h, if_neg h]
    have hmidlen : (n.addState.1.modifyState L
        (fun s => s.pushTransition ⟨star, L⟩)).states.length = L + 1 := by
      simp
    have hstate : ∀ j, n'.state j =
        if j = f then { n.state f with epsilon_transition := some L }
        else if j = L then ⟨[], [⟨star, L⟩], none⟩
        else n.state j := by
      intro j
      rw [hn']
      by_cases h : j = f
      · rw [if_pos h, h, Nfa.state_modify_self _ _ _ (by omega), hmid,
          if_neg hfL]
      · rw [if_neg h, Nfa.state_modify_ne _ _ _ _ h, hmid]
    have hlen : n'.states.length = L + 1 := by
      rw [hn', Nfa.length_modifyState, hmidlen]
    have hmem_char : ∀ j t', t' ∈ (n'.state j).transitions ↔
        (t' ∈ (n.state j).transitions ∨ (j = L ∧ t' = ⟨star, L⟩)) := by
      intro j t'
      rw [hstate]
      by_cases h : j = f
      · rw [if_pos h]
        have hjL : ¬ j = L := by rw [h]; exact hfL
        simp [hjL, h]
        intro hc
        exact absurd hc hfL
      · rw [if_neg h]
        by_cases h2 : j = L
        · rw [if_pos h2, h2, Nfa.state_oob n L (le_refl _)]
          simp [State.new]
        · rw [if_neg h2]
          simp [h2]
    have heps_char : ∀ j, (n'.state j).epsilon_transition =
        if j = f then some L else (n.state j).epsilon_transition := by
      intro j
      rw [hstate]
      by_cases h : j = f
      · rw [if_pos h, if_pos h]
      · rw [if_neg h, if_neg h]
        by_cases h2 : j = L
        · rw [if_pos h2, h2, Nfa.state_oob n L (le_refl _)]
          rfl
        · rw [if_neg h2]
    have hterm_char : ∀ j, (n'.state j).terminal_for_patterns =
        (n.state j).terminal_for_patterns := by
      intro j
      rw [hstate]
      by_cases h : j = f
      · rw [if_pos h, h]
      · rw [if_neg h]
        by_cases h2 : j = L
        · rw [if_pos h2, h2, Nfa.state_oob n L (le_refl _)]
          rfl
        · rw [if_neg h2]
    have hsl' : selfLoop n' L := by
      rw [selfLoop]
      exact (hmem_char L _).mpr (Or.inr ⟨rfl, rfl⟩)
    refine ⟨?_, ?_, ?_, ?_, ?_, ?_⟩
    · constructor
      · intro sid t' hmem htgt'
        rcases (hmem_char sid t').mp hmem with h | ⟨rfl, rfl⟩
        · exact inv.self_star _ _ h htgt'
        · rfl
      · intro sid g'
        rw [hstate]
        by_cases h : sid = f
        · rw [if_pos h, h]
          exact inv.nonself_unique f g'
        · rw [if_neg h]
          by_cases h2 : sid = L
          · rw [if_pos h2, h2]
            simp
          · rw [if_neg h2]
            exact inv.nonself_unique sid g'
      · intro sid
        rw [hstate]
        by_cases h : sid = f
        · rw [if_pos h, h]
          exact inv.self_unique f
        · rw [if_neg h]
          by_cases h2 : sid = L
          · rw [if_pos h2, h2]
            exact le_trans (List.length_filter_le _ _) (by simp)
          · rw [if_neg h2]
            exact inv.self_unique sid
      · intro sid t' hmem htgt'
        rcases (hmem_char sid t').mp hmem with h | ⟨rfl, -⟩
        · obtain ⟨src, hsrc⟩ := inv.self_eps_target sid t' h htgt'
          have hsf : src ≠ f := by
            intro hc
            rw [hc, heps] at hsrc
            cases hsrc
          refine ⟨src, ?_⟩
          rw [heps_char, if_neg hsf]
          exact hsrc
        · exact ⟨f, by rw [heps_char, if_pos rfl]⟩
      · intro sid e' heps'
        rw [heps_char] at heps'
        by_cases h : sid = f
        · rw [if_pos h] at heps'
          injection heps' with heps'
          rw [← heps']
          exact hsl'
        · rw [if_neg h] at heps'
          have := inv.eps_self_loop sid e' heps'
          rw [selfLoop] at this ⊢
          exact (hmem_char e' _).mpr (Or.inl this)
      · intro sid t' hmem
        rw [hlen]
        rcases (hmem_char sid t').mp hmem with h | ⟨-, rfl⟩
        · exact lt_trans (inv.target_lt _ _ h) (by omega)
        · simp
      · intro sid e' heps'
        rw [heps_char] at heps'
        rw [hlen]
        by_cases h : sid = f
        · rw [if_pos h] at heps'
          injection heps' with heps'
          omega
        · rw [if_neg h] at heps'
          exact lt_trans (inv.eps_lt _ _ heps') (by omega)
    · refine ⟨by rw [hlen]; omega, ?_, ?_, ?_⟩
      · intro sid t' h
        exact (hmem_char sid t').mpr (Or.inl h)
      · intro sid e' h
        rw [heps_char]
        by_cases hs : sid = f
        · rw [hs, heps] at h
          cases h
        · rw [if_neg hs]
          exact h
      · intro sid i h
        rw [hterm_char]
        exact h
    · rw [hlen]; omega
    · rw [hlen]; omega
    · exact hterm_char
    · exact hsl'

/-- Folding `Builder::add`'s per-segment step preserves the invariants,
extends the NFA, keeps the threaded state id in range, and leaves terminal
lists unchanged. -/
lemma foldSegments_ok (segs : List Str) (n : Nfa) (k : Nat)
    (inv : NfaInv n) (hk : k < n.states.length) :
    NfaInv (segs.foldl Builder.addSegment (n, k)).1 ∧
    Ext n (segs.foldl Builder.addSegment (n, k)).1 ∧
    (segs.foldl Builder.addSegment (n, k)).2 <
      (segs.foldl Builder.addSegment (n, k)).1.states.length ∧
    n.states.length ≤ (segs.foldl Builder.addSegment (n, k)).1.states.length ∧
    (∀ sid, ((segs.foldl Builder.addSegment (n, k)).1.state sid).terminal_for_patterns =
        (n.state sid).terminal_for_patterns) := by
  induction segs generalizing n k with
  | nil => exact ⟨inv, Ext.rfl n, hk, le_refl _, fun _ => rfl⟩
  | cons s segs ih =>
    rw [List.foldl_cons]
    have hstep : NfaInv (Builder.addSegment (n, k) s).1 ∧
        Ext n (Builder.addSegment (n, k) s).1 ∧
        (Builder.addSegment (n, k) s).2 < (Builder.addSegment (n, k) s).1.states.length ∧
        n.states.length ≤ (Builder.addSegment (n, k) s).1.states.length ∧
        (∀ sid, ((Builder.addSegment (n, k) s).1.state sid).terminal_for_patterns =
            (n.state sid).terminal_for_patterns) := by
      rw [Builder.addSegment]
      by_cases h : s = star2
      · rw [if_pos h]
        obtain ⟨a, b, c, d, e, -⟩ := addEpsilonTransition_ok n k inv hk
        exact ⟨a, b, c, d, e⟩
      · rw [if_neg h]
        exact addTransition_ok n k s inv hk
    obtain ⟨inv1, ext1, hk1, hle1, hterm1⟩ := hstep
    obtain ⟨inv2, ext2, hk2, hle2, hterm2⟩ :=
      ih (Builder.addSegment (n, k) s).1 (Builder.addSegment (n, k) s).2 inv1 hk1
    refine ⟨inv2, Ext.comp ext1 ext2, hk2, le_trans hle1 hle2, ?_⟩
    intro sid
    rw [hterm2, hterm1]

/-- Marking a terminal state preserves the structural invariants and touches
only the terminal list of that state. -/
lemma markTerminal_ok (n : Nfa) (e pid : Nat) (inv : NfaInv n)
    (he : e < n.states.length) :
    NfaInv (n.modifyState e (fun s => s.markAsTerminal pid)) ∧
    Ext n (n.modifyState e (fun s => s.markAsTerminal pid)) ∧
    (n.modifyState e (fun s => s.markAsTerminal pid)).states.length = n.states.length ∧
    (∀ sid, ((n.modifyState e (fun s => s.markAsTerminal pid)).state sid).transitions =
        (n.state sid).transitions) ∧
    (∀ sid, ((n.modifyState e (fun s => s.markAsTerminal pid)).state sid).epsilon_transition =
        (n.state sid).epsilon_transition) ∧
    (∀ sid id, id ∈ ((n.modifyState e
          (fun s => s.markAsTerminal pid)).state sid).terminal_for_patterns ↔
        (id ∈ (n.state sid).terminal_for_patterns ∨ (sid = e ∧ id = pid))) := by
  · have hstate : ∀ j, (n.modifyState e (fun s => s.markAsTerminal pid)).state j =
        if j = e then (n.state e).markAsTerminal pid else n.state j := by
      intro j
      by_cases h : j = e
      · rw [if_pos h, h, Nfa.state_modify_self _ _ _ he]
      · rw [if_neg h, Nfa.state_modify_ne _ _ _ _ h]
    have htrans : ∀ j, ((n.modifyState e (fun s => s.markAsTerminal pid)).state j).transitions =
        (n.state j).transitions := by
      intro j
      rw [hstate]
      by_cases h : j = e
      · rw [if_pos h, State.markAsTerminal_transitions, h]
      · rw [if_neg h]
    have heps : ∀ j, ((n.modifyState e (fun s => s.markAsTerminal pid)).state j).epsilon_transition =
        (n.state j).epsilon_transition := by
      intro j
      rw [hstate]
      by_cases h : j = e
      · rw [if_pos h, State.markAsTerminal_eps, h]
      · rw [if_neg h]
    have hterm : ∀ j id, id ∈ ((n.modifyState e
          (fun s => s.markAsTerminal pid)).state j).terminal_for_patterns ↔
        (id ∈ (n.state j).terminal_for_patterns ∨ (j = e ∧ id = pid)) := by
      intro j id
      rw [hstate]
      by_cases h : j = e
      · rw [if_pos h, State.markAsTerminal_terminal, h]
        simp
      · rw [if_neg h]
        simp [h]
    refine ⟨?_, ?_, by simp, htrans, heps, hterm⟩
    · constructor
      · intro sid t hmem ht
        rw [htrans] at hmem
        exact inv.self_star sid t hmem ht
      · intro sid g
        rw [htrans]
        exact inv.nonself_unique sid g
      · intro sid
        rw [htrans]
        exact inv.self_unique sid
      · intro sid t hmem ht
        rw [htrans] at hmem
        obtain ⟨src, hsrc⟩ := inv.self_eps_target sid t hmem ht
        exact ⟨src, by rw [heps]; exact hsrc⟩
      · intro sid e' h
        rw [heps] at h
        have := inv.eps_self_loop sid e' h
        rw [selfLoop] at this ⊢
        rw [htrans]
        exact this
      · intro sid t hmem
        rw [htrans] at hmem
        rw [Nfa.length_modifyState]
        exact inv.target_lt sid t hmem
      · intro sid e' h
        rw [heps] at h
        rw [Nfa.length_modifyState]
        exact inv.eps_lt sid e' h
    · refine ⟨by simp, ?_, ?_, ?_⟩
      · intro sid t h
        rw [htrans]
        exact h
      · intro sid e' h
        rw [heps]
        exact h
      · intro sid i h
        exact (hterm sid i).mpr (Or.inl h)

/-- The segment list a pattern is compiled from (`builder.rs` lines 43-56). -/
def patSegments (p : Str) : List Str :=
  splitSlash (stripTrail (stripLead p).1).1

lemma splitSlash_ne_nil (cs : Str) : splitSlash cs ≠ [] := by
  cases cs with
  | nil => simp [splitSlash]
  | cons c rest =>
    rw [splitSlash]
    by_cases h : c = '/'
    · simp [h]
    · rw [if_neg h]
      cases splitSlash rest <;> simp

/-- Invariant carried through a sequence of `Builder::add` calls compiling
`pats`: pattern ids are dense below `pats.length`, the structural NFA
invariants hold, and the terminal state of every pattern whose final segment
is not `*` carries a `*` self-loop. -/
structure BuilderOK (pats : List Str) (b : Builder) : Prop where
  npid : b.next_pattern_id = pats.length
  inv : NfaInv b.nfa
  start_lt : 0 < b.nfa.states.length
  tbound : TermBound b.nfa pats.length
  tloop : ∀ sid id p, id ∈ (b.nfa.state sid).terminal_for_patterns →
      pats.get? id = some p → (patSegments p).getLast? ≠ some star →
      selfLoop b.nfa sid

/-- The start-state selection preserves the invariants. -/
lemma startState_ok (n : Nfa) (lead : Bool) (segs : List Str)
    (inv : NfaInv n) (h0 : 0 < n.states.length) :
    NfaInv (Builder.startState n lead segs).1 ∧
    Ext n (Builder.startState n lead segs).1 ∧
    (Builder.startState n lead segs).2 < (Builder.startState n lead segs).1.states.length ∧
    n.states.length ≤ (Builder.startState n lead segs).1.states.length ∧
    (∀ sid, ((Builder.startState n lead segs).1.state sid).terminal_for_patterns =
        (n.state sid).terminal_for_patterns) := by
  rw [Builder.startState]
  split
  · obtain ⟨a, b, c, d, e, -⟩ := addEpsilonTransition_ok n 0 inv h0
    exact ⟨a, b, c, d, e⟩
  · exact ⟨inv, Ext.rfl _, h0, le_refl _, fun _ => rfl⟩

/-- The tail stage preserves the invariants and, when the final segment is
not `*`, returns a state with a `*` self-loop. -/
lemma addTail_ok (n : Nfa) (k : Nat) (trailing : Bool) (segments : List Str)
    (inv : NfaInv n) (hk : k < n.states.length) :
    NfaInv (Builder.addTail n k trailing segments).1 ∧
    Ext n (Builder.addTail n k trailing segments).1 ∧
    (Builder.addTail n k trailing segments).2 <
      (Builder.addTail n k trailing segments).1.states.length ∧
    n.states.length ≤ (Builder.addTail n k trailing segments).1.states.length ∧
    (∀ sid, ((Builder.addTail n k trailing segments).1.state sid).terminal_for_patterns =
        (n.state sid).terminal_for_patterns) ∧
    (∀ last, segments.getLast? = some last → last ≠ star →
        selfLoop (Builder.addTail n k trailing segments).1
          (Builder.addTail n k trailing segments).2) := by
  rw [Builder.addTail]
  rcases eg : (if trailing || segments.getLast? = some star2
      then n.addTransition k star else (n, k)) with ⟨n1, k1⟩
  have hg : NfaInv n1 ∧ Ext n n1 ∧ k1 < n1.states.length ∧
      n.states.length ≤ n1.states.length ∧
      (∀ sid, (n1.state sid).terminal_for_patterns =
        (n.state sid).terminal_for_patterns) := by
    by_cases hc : (trailing || segments.getLast? = some star2 : Bool)
    · rw [if_pos hc] at eg
      have := addTransition_ok n k star inv hk
      rw [eg] at this
      exact this
    · rw [if_neg hc] at eg
      injection eg with e1 e2
      rw [← e1, ← e2]
      exact ⟨inv, Ext.rfl _, hk, le_refl _, fun _ => rfl⟩
  obtain ⟨inv1, ext1, hk1, hle1, hterm1⟩ := hg
  cases hlast : segments.getLast? with
  | none =>
    dsimp only
    refine ⟨inv1, ext1, hk1, hle1, hterm1, ?_⟩
    intro last hl
    cases hl
  | some last =>
    dsimp only
    by_cases hstar : last ≠ star
    · rw [if_pos hstar]
      obtain ⟨a, bb, c, d, e, fsl⟩ := addEpsilonTransition_ok n1 k1 inv1 hk1
      refine ⟨a, Ext.comp ext1 bb, c, le_trans hle1 d, ?_, ?_⟩
      · intro sid
        rw [e, hterm1]
      · intro _ _ _
        exact fsl
    · rw [if_neg hstar]
      refine ⟨inv1, ext1, hk1, hle1, hterm1, ?_⟩
      intro l hl hne
      injection hl with hl
      rw [← hl] at hne
      exact absurd hne hstar

lemma builder_add_ok (pats : List Str) (p : Str) (b : Builder)
    (h : BuilderOK pats b) :
    BuilderOK (pats ++ [p]) (b.add p).1 ∧ Ext b.nfa (b.add p).1.nfa := by
  obtain ⟨inv1, ext1, hk1, hle1, hterm1⟩ :=
    startState_ok b.nfa (stripLead p).2 (splitSlash (stripTrail (stripLead p).1).1)
      h.inv h.start_lt
  rcases e1 : Builder.startState b.nfa (stripLead p).2
      (splitSlash (stripTrail (stripLead p).1).1) with ⟨n1, k1⟩
  rw [e1] at inv1 ext1 hk1 hle1 hterm1
  dsimp only at inv1 ext1 hk1 hle1 hterm1
  obtain ⟨inv2, ext2, hk2, hle2, hterm2⟩ :=
    foldSegments_ok (splitSlash (stripTrail (stripLead p).1).1) n1 k1 inv1 hk1
  rcases e2 : (splitSlash (stripTrail (stripLead p).1).1).foldl
      Builder.addSegment (n1, k1) with ⟨n2, k2⟩
  rw [e2] at inv2 ext2 hk2 hle2 hterm2
  dsimp only at inv2 ext2 hk2 hle2 hterm2
  obtain ⟨inv3, ext3, hk3, hle3, hterm3, hsl3⟩ :=
    addTail_ok n2 k2 (stripTrail (stripLead p).1).2
      (splitSlash (stripTrail (stripLead p).1).1) inv2 hk2
  rcases e3 : Builder.addTail n2 k2 (stripTrail (stripLead p).1).2
      (splitSlash (stripTrail (stripLead p).1).1) with ⟨n3, k3⟩
  rw [e3] at inv3 ext3 hk3 hle3 hterm3 hsl3
  dsimp only at inv3 ext3 hk3 hle3 hterm3 hsl3
  obtain ⟨inv4, ext4, hlen4, htrans4, heps4, hterm4⟩ :=
    markTerminal_ok n3 k3 b.next_pattern_id inv3 hk3
  have hadd : b.add p = (⟨n3.modifyState k3
      (fun s => s.markAsTerminal b.next_pattern_id), b.next_pattern_id + 1⟩,
      b.next_pattern_id) := by
    rw [Builder.add]
    rw [e1, e2, e3]
  have hext : Ext b.nfa (b.add p).1.nfa := by
    rw [hadd]
    exact Ext.comp ext1 (Ext.comp ext2 (Ext.comp ext3 ext4))
  have hterm_old : ∀ sid, (n3.state sid).terminal_for_patterns =
      (b.nfa.state sid).terminal_for_patterns := by
    intro sid
    rw [hterm3, hterm2, hterm1]
  refine ⟨⟨?_, ?_, ?_, ?_, ?_⟩, hext⟩
  · rw [hadd, h.npid]
    simp
  · rw [hadd]
    exact inv4
  · rw [hadd]
    dsimp only
    have hs := h.start_lt
    have : b.nfa.states.length ≤ (n3.modifyState k3
        (fun s => s.markAsTerminal b.next_pattern_id)).states.length := by
      rw [hlen4]
      omega
    omega
  · intro sid id hmem
    rw [hadd] at hmem
    rcases (hterm4 sid id).mp hmem with hold | ⟨-, rfl⟩
    · rw [hterm_old] at hold
      have := h.tbound sid id hold
      simp only [List.length_append, List.length_cons, List.length_nil]
      omega
    · rw [h.npid]
      simp only [List.length_append, List.length_cons, List.length_nil]
      omega
  · intro sid id q hmem hget hlast
    rw [hadd] at hmem
    rcases (hterm4 sid id).mp hmem with hold | ⟨rfl, rfl⟩
    · rw [hterm_old] at hold
      have hid : id < pats.length := h.tbound sid id hold
      rw [List.get?_append hid] at hget
      have := h.tloop sid id q hold hget hlast
      exact selfLoop_mono hext this
    · rw [h.npid] at hget
      have hq : q = p := by
        have : (pats ++ [p]).get? pats.length = some p := by
          rw [List.get?_append_right (le_refl _)]
          simp
        rw [this] at hget
        injection hget with hget
        exact hget.symm
      rw [hq] at hlast
      have hne : patSegments p ≠ [] := splitSlash_ne_nil _
      obtain ⟨last, hl⟩ := Option.ne_none_iff_exists'.mp
        (fun hc => hne (List.getLast?_eq_none_iff.mp hc))
      have hlne : last ≠ star := by
        intro hc
        rw [hc] at hl
        exact hlast hl
      have := hsl3 last (by rw [patSegments] at hl; exact hl) hlne
      rw [hadd]
      rw [selfLoop] at this ⊢
      rw [htrans4]
      exact this

/-- `BuilderOK` holds after compiling any pattern list from a fresh builder. -/
lemma buildNfa_ok (pats : List Str) :
    BuilderOK pats (pats.foldl (fun b p => (b.add p).1) Builder.new) := by
  suffices h : ∀ (ps : List Str) (pre : List Str) (b : Builder), BuilderOK pre b →
      BuilderOK (pre ++ ps) (ps.foldl (fun b p => (b.add p).1) b) by
    have h0 : BuilderOK [] Builder.new := by
      refine ⟨rfl, nfaInv_new, by simp [Builder.new, Nfa.new], termBound_new 0, ?_⟩
      intro sid id q hmem
      have : (Builder.new.nfa.state sid).terminal_for_patterns = [] := by
        cases sid with
        | zero => rfl
        | succ j =>
          rw [Nfa.state_oob _ _ (by simp [Builder.new, Nfa.new])]
          rfl
      rw [this] at hmem
      cases hmem
    simpa using h pats [] Builder.new h0
  intro ps
  induction ps with
  | nil =>
    intro pre b hb
    simpa using hb
  | cons q qs ih =>
    intro pre b hb
    have hstep := (builder_add_ok pre q b hb).1
    have := ih (pre ++ [q]) (b.add q).1 hstep
    rw [List.append_assoc] at this
    simpa using this

/-! ## Facts about `listMax` -/

lemma le_foldl_max (xs : List Nat) (a : Nat) : a ≤ xs.foldl max a := by
  induction xs generalizing a with
  | nil => exact le_refl a
  | cons x xs ih =>
    exact le_trans (le_max_left a x) (ih (max a x))

lemma foldl_max_mem (xs : List Nat) (a : Nat) :
    xs.foldl max a = a ∨ xs.foldl max a ∈ xs := by
  induction xs generalizing a with
  | nil => exact Or.inl rfl
  | cons x xs ih =>
    rcases ih (max a x) with h | h
    · rcases max_choice a x with hm | hm
      · exact Or.inl (by rw [List.foldl_cons, h, hm])
      · exact Or.inr (by rw [List.foldl_cons, h, hm]; exact List.mem_cons_self x xs)
    · exact Or.inr (List.mem_cons_of_mem x h)

lemma mem_le_foldl_max (xs : List Nat) (a j : Nat) (hj : j ∈ xs) :
    j ≤ xs.foldl max a := by
  induction xs generalizing a with
  | nil => cases hj
  | cons x xs ih =>
    rcases List.mem_cons.mp hj with rfl | h
    · exact le_trans (le_max_right a j) (le_foldl_max xs (max a j))
    · exact ih (max a x) h

lemma listMax_eq_none_iff (l : List Nat) : listMax l = none ↔ l = [] := by
  cases l <;> simp [listMax]

lemma listMax_spec (l : List Nat) (m : Nat) (h : listMax l = some m) :
    m ∈ l ∧ ∀ j ∈ l, j ≤ m := by
  cases l with
  | nil => cases h
  | cons x xs =>
    simp only [listMax, Option.some.injEq] at h
    subst h
    constructor
    · rcases foldl_max_mem xs x with h | h
      · rw [h]; exact List.mem_cons_self x xs
      · exact List.mem_cons_of_mem x h
    · intro j hj
      rcases List.mem_cons.mp hj with rfl | h
      · exact le_foldl_max xs j
      · exact mem_le_foldl_max xs x j h

lemma listMax_eq_some (l : List Nat) (i : Nat) (hi : i ∈ l) (hmax : ∀ j ∈ l, j ≤ i) :
    listMax l = some i := by
  cases hl : listMax l with
  | none => rw [listMax_eq_none_iff] at hl; subst hl; cases hi
  | some m =>
    obtain ⟨hm, hle⟩ := listMax_spec l m hl
    have h1 : m ≤ i := hmax m hm
    have h2 : i ≤ m := hle i hi
    rw [Nat.le_antisymm h1 h2]

/-! ## Matching-membership helpers -/

lemma mem_matchingPatterns (n : Nfa) (segs : List Str) (p : Nat) :
    p ∈ n.matchingPatterns segs ↔
      ∃ sid, sid ∈ n.finalStates segs ∧ p ∈ (n.state sid).terminal_for_patterns := by
  simp only [Nfa.matchingPatterns, List.mem_flatMap]
  constructor
  · rintro ⟨sid, h1, h2⟩
    refine ⟨sid, h1, ?_⟩
    by_cases h : (n.state sid).isTerminal
    · rwa [if_pos h] at h2
    · rw [if_neg h] at h2; cases h2
  · rintro ⟨sid, h1, h2⟩
    refine ⟨sid, h1, ?_⟩
    have : (n.state sid).isTerminal := by
      simp only [State.isTerminal, Bool.not_eq_true', ← Bool.not_eq_true]
      simp [List.isEmpty_iff, List.ne_nil_of_mem h2]
    rwa [if_pos this]

lemma segMatch_star (s : Str) : segMatch star s = true := rfl

/-- A self-looping active state stays active through any matching step. -/
lemma mem_step_of_selfLoop (n : Nfa) (sid : Nat) (hsl : selfLoop n sid)
    (states : List Nat) (hmem : sid ∈ states) (s : Str) :
    sid ∈ n.stepStates states s := by
  rw [Nfa.stepStates]
  apply List.mem_append_left
  rw [List.mem_flatMap]
  refine ⟨sid, hmem, ?_⟩
  rw [List.mem_map]
  refine ⟨⟨star, sid⟩, ?_, rfl⟩
  rw [List.mem_filter]
  exact ⟨hsl, by rw [segMatch_star]⟩

/-- A self-looping state active after `segs` is still active after any
extension of the path. -/
lemma mem_nextStates_extend (n : Nfa) (sid : Nat) (hsl : selfLoop n sid)
    (start : List Nat) (segs more : List Str)
    (hmem : sid ∈ n.nextStates segs start) :
    sid ∈ n.nextStates (segs ++ more) start := by
  induction more using List.reverseRecOn with
  | nil => simpa using hmem
  | append_singleton xs x ih =>
    rw [← List.append_assoc, Nfa.nextStates, List.foldl_append, List.foldl_cons,
      List.foldl_nil]
    exact mem_step_of_selfLoop n sid hsl _ ih x

/-- General half of C4: a pattern whose compiled final segment is not `*`
matches recursively. -/
lemma nonstar_pattern_recursive (pats : List Str) (id : Nat) (p : Str)
    (segs more : List Str) (hp : pats.get? id = some p)
    (hlast : (patSegments p).getLast? ≠ some star)
    (hm : id ∈ (buildNfa pats).matchingPatterns segs) :
    id ∈ (buildNfa pats).matchingPatterns (segs ++ more) := by
  obtain ⟨sid, hfin, hterm⟩ := (mem_matchingPatterns _ _ _).mp hm
  have hok := buildNfa_ok pats
  have hsl : selfLoop (buildNfa pats) sid := hok.tloop sid id p hterm hp hlast
  exact (mem_matchingPatterns _ _ _).mpr
    ⟨sid, mem_nextStates_extend _ sid hsl _ segs more hfin, hterm⟩

/-! ## Chain-shaped compilations

An anchored pattern without `**` segments compiles to a simple chain of
states; the exact shape of the suffix appended by `Builder::addTail` then
determines the matching semantics.  `chainBody L i` is the list of chain
states for segment list `L` starting at state id `i`. -/

def chainBody : List Str → Nat → List State
  | [], _ => []
  | l :: ls, i => ⟨[], [⟨l, i + 1⟩], none⟩ :: chainBody ls (i + 1)

/-- The NFA consisting of the chain for `L` plus a fresh final state. -/
def chainNfa (L : List Str) : Nfa :=
  ⟨chainBody L 0 ++ [State.new]⟩

@[simp] lemma chainBody_length (L : List Str) (i : Nat) :
    (chainBody L i).length = L.length := by
  induction L generalizing i with
  | nil => rfl
  | cons l ls ih => simp [chainBody, ih]

lemma chainBody_snoc (L : List Str) (r : Str) (i : Nat) :
    chainBody (L ++ [r]) i =
      chainBody L i ++ [⟨[], [⟨r, i + L.length + 1⟩], none⟩] := by
  induction L generalizing i with
  | nil => simp [chainBody]
  | cons l ls ih =>
    rw [List.cons_append, chainBody, chainBody, ih]
    have harith : i + 1 + ls.length + 1 = i + (l :: ls).length + 1 := by
      simp only [List.length_cons]
      omega
    rw [harith]
    simp

lemma chainBody_getD (L : List Str) (i j : Nat) :
    (chainBody L i).getD j State.new =
      if j < L.length then ⟨[], [⟨L.getD j [], i + j + 1⟩], none⟩ else State.new := by
  induction L generalizing i j with
  | nil => simp [chainBody, List.getD]
  | cons l ls ih =>
    cases j with
    | zero => simp [chainBody, List.getD]
    | succ j =>
      rw [chainBody]
      have : (⟨[], [⟨l, i + 1⟩], none⟩ :: chainBody ls (i + 1)).getD (j + 1) State.new =
          (chainBody ls (i + 1)).getD j State.new := by
        simp [List.getD]
      rw [this, ih]
      by_cases h : j < ls.length
      · rw [if_pos h, if_pos (by simpa using Nat.succ_lt_succ h)]
        have : (l :: ls).getD (j + 1) [] = ls.getD j [] := by simp [List.getD]
        rw [this]
        have harith : i + 1 + j + 1 = i + (j + 1) + 1 := by omega
        rw [harith]
      · rw [if_neg h, if_neg (by simp only [List.length_cons]; omega)]

/-- Setting the element just past a prefix. -/
lemma set_append_add (xs ys : List State) (k : Nat) (v : State) :
    (xs ++ ys).set (xs.length + k) v = xs ++ ys.set k v := by
  induction xs with
  | nil => simp
  | cons x xs ih =>
    simp only [List.cons_append, List.length_cons]
    have : x :: xs ++ ys = x :: (xs ++ ys) := rfl
    rw [Nat.succ_add, List.set_cons_succ, ih]

/-- State lookup in an NFA made of a chain body plus an explicit suffix. -/
lemma chainSuffix_state (L : List Str) (suffix : List State) (j : Nat) :
    (⟨chainBody L 0 ++ suffix⟩ : Nfa).state j =
      if j < L.length then ⟨[], [⟨L.getD j [], j + 1⟩], none⟩
      else suffix.getD (j - L.length) State.new := by
  rw [Nfa.state]
  by_cases h : j < L.length
  · rw [if_pos h]
    have : (chainBody L 0 ++ suffix).getD j State.new =
        (chainBody L 0).getD j State.new := by
      rw [List.getD, List.getD, List.get?_append (by simpa using h)]
    rw [this, chainBody_getD]
    rw [if_pos h]
    have harith : 0 + j + 1 = j + 1 := by omega
    rw [harith]
  · rw [if_neg h]
    show (chainBody L 0 ++ suffix).getD j State.new = _
    rw [List.getD, List.get?_append_right (by simpa using Nat.le_of_not_lt h)]
    simp [List.getD]

lemma modify_at (L : List Str) (sfx : List State) (k : Nat) (f : State → State) :
    (⟨chainBody L 0 ++ sfx⟩ : Nfa).modifyState (L.length + k) f =
      ⟨chainBody L 0 ++ sfx.set k (f (sfx.getD k State.new))⟩ := by
  rw [Nfa.modifyState]
  congr 1
  rw [chainSuffix_state, if_neg (by omega)]
  have h1 : L.length + k - L.length = k := by omega
  rw [h1]
  show (chainBody L 0 ++ sfx).set (L.length + k) _ = _
  rw [← chainBody_length L 0, set_append_add]

lemma addState_suffix (L : List Str) (sfx : List State) :
    (⟨chainBody L 0 ++ sfx⟩ : Nfa).addState =
      (⟨chainBody L 0 ++ (sfx ++ [State.new])⟩, L.length + sfx.length) := by
  rw [Nfa.addState]
  simp [List.append_assoc]

lemma transitions_at (L : List Str) (sfx : List State) (k : Nat) :
    (⟨chainBody L 0 ++ sfx⟩ : Nfa).transitionsFrom (L.length + k) =
      (sfx.getD k State.new).transitions := by
  rw [Nfa.transitionsFrom, chainSuffix_state, if_neg (by omega)]
  have h1 : L.length + k - L.length = k := by omega
  rw [h1]

lemma eps_at (L : List Str) (sfx : List State) (k : Nat) :
    ((⟨chainBody L 0 ++ sfx⟩ : Nfa).state (L.length + k)).epsilon_transition =
      (sfx.getD k State.new).epsilon_transition := by
  rw [chainSuffix_state, if_neg (by omega)]
  have h1 : L.length + k - L.length = k := by omega
  rw [h1]

/-- Adding a fresh transition from the final (empty) chain state extends the
chain by one link. -/
lemma addTransition_chain (pre : List Str) (r : Str) :
    (chainNfa pre).addTransition pre.length r =
      (chainNfa (pre ++ [r]), pre.length + 1) := by
  have hstate : (chainNfa pre).transitionsFrom pre.length = [] := by
    have := transitions_at pre [State.new] 0
    simpa [chainNfa] using this
  rw [Nfa.addTransition, hstate]
  rw [List.find?_nil]
  have hlen : (chainNfa pre).states.length = pre.length + 1 := by
    simp [chainNfa]
  have haddst : (chainNfa pre).addState =
      (⟨chainBody pre 0 ++ [State.new, State.new]⟩, pre.length + 1) := by
    have := addState_suffix pre [State.new]
    simpa [chainNfa] using this
  rw [haddst]
  dsimp only
  have hmod := modify_at pre [State.new, State.new] 0
      (fun s => s.pushTransition ⟨r, pre.length + 1⟩)
  have h0 : pre.length + 0 = pre.length := by omega
  rw [h0] at hmod
  rw [hmod]
  rw [chainNfa, chainBody_snoc]
  have harith : 0 + pre.length + 1 = pre.length + 1 := by omega
  rw [harith, List.append_assoc]
  rfl

/-- The fold over `**`-free segments from the end of a chain extends the
chain segment by segment. -/
lemma foldSegs_chain (rest : List Str) (pre : List Str) (hs : ¬ star2 ∈ rest) :
    rest.foldl Builder.addSegment (chainNfa pre, pre.length) =
      (chainNfa (pre ++ rest), (pre ++ rest).length) := by
  induction rest generalizing pre with
  | nil => simp
  | cons r rs ih =>
    have hr : r ≠ star2 := fun hc => hs (by rw [hc]; exact List.mem_cons_self _ _)
    have hrs : ¬ star2 ∈ rs := fun hc => hs (List.mem_cons_of_mem _ hc)
    rw [List.foldl_cons, Builder.addSegment, if_neg hr]
    dsimp only
    rw [addTransition_chain pre r]
    have h2 := ih (pre ++ [r]) hrs
    have h3 : pre.length + 1 = (pre ++ [r]).length := by simp
    rw [h3, h2, List.append_assoc]
    simp

/-- Adding an epsilon transition at the trailing empty state allocates the
self-looping epsilon target. -/
lemma addEps_end (L : List Str) (sfx : List State) :
    (⟨chainBody L 0 ++ (sfx ++ [State.new])⟩ : Nfa).addEpsilonTransition
        (L.length + sfx.length) =
      (⟨chainBody L 0 ++ (sfx ++
          [⟨[], [], some (L.length + sfx.length + 1)⟩,
           ⟨[], [⟨star, L.length + sfx.length + 1⟩], none⟩])⟩,
       L.length + sfx.length + 1) := by
  have htr : (⟨chainBody L 0 ++ (sfx ++ [State.new])⟩ : Nfa).transitionsFrom
      (L.length + sfx.length) = [] := by
    rw [transitions_at]
    rw [List.getD, List.get?_append_right (le_refl _)]
    simp [List.getD, State.new]
  have heps : ((⟨chainBody L 0 ++ (sfx ++ [State.new])⟩ : Nfa).state
      (L.length + sfx.length)).epsilon_transition = none := by
    rw [eps_at]
    rw [List.getD, List.get?_append_right (le_refl _)]
    simp [List.getD, State.new]
  rw [Nfa.addEpsilonTransition, htr]
  rw [heps]
  simp only [List.any_nil, Bool.false_eq_true, if_false]
  have haddst := addState_suffix L (sfx ++ [State.new])
  rw [haddst]
  dsimp only
  have hlen2 : (sfx ++ [State.new]).length = sfx.length + 1 := by simp
  rw [hlen2]
  have hm1 := modify_at L ((sfx ++ [State.new]) ++ [State.new]) (sfx.length + 1)
      (fun s => s.pushTransition ⟨star, L.length + (sfx.length + 1)⟩)
  have hgd1 : (((sfx ++ [State.new]) ++ [State.new])).getD (sfx.length + 1) State.new =
      State.new := by
    rw [List.getD, List.get?_append_right (by simp), hlen2]
    simp [List.getD]
  have hset1 : ((sfx ++ [State.new]) ++ [State.new]).set (sfx.length + 1)
      (State.new.pushTransition ⟨star, L.length + (sfx.length + 1)⟩) =
      sfx ++ [State.new, ⟨[], [⟨star, L.length + (sfx.length + 1)⟩], none⟩] := by
    have hpos : sfx.length + 1 = (sfx ++ [State.new]).length + 0 := by simp
    rw [hpos, set_append_add, List.append_assoc]
    rfl
  rw [hgd1] at hm1
  have harith : L.length + (sfx.length + 1) = L.length + sfx.length + 1 := by omega
  rw [harith] at hm1 hset1
  rw [harith, hm1, hset1]
  have hm2 := modify_at L (sfx ++ [State.new, ⟨[], [⟨star, L.length + sfx.length + 1⟩], none⟩])
      sfx.length (fun s => { s with epsilon_transition := some (L.length + sfx.length + 1) })
  have hgd2 : (sfx ++ [State.new, ⟨[], [⟨star, L.length + sfx.length + 1⟩], none⟩]).getD
      sfx.length State.new = State.new := by
    rw [List.getD, List.get?_append_right (le_refl _)]
    simp [List.getD]
  have hset2 : (sfx ++ [State.new, ⟨[], [⟨star, L.length + sfx.length + 1⟩], none⟩]).set
      sfx.length { State.new with epsilon_transition := some (L.length + sfx.length + 1) } =
      sfx ++ [⟨[], [], some (L.length + sfx.length + 1)⟩,
        ⟨[], [⟨star, L.length + sfx.length + 1⟩], none⟩] := by
    have h := set_append_add sfx
      [State.new, ⟨[], [⟨star, L.length + sfx.length + 1⟩], none⟩] 0
      { State.new with epsilon_transition := some (L.length + sfx.length + 1) }
    have h0 : sfx.length + 0 = sfx.length := by omega
    rw [h0] at h
    rw [h]
    rfl
  rw [hgd2] at hm2
  rw [hm2, hset2]

/-- Adding a `*` transition from a state that has only its `*` self-loop
allocates a fresh target (the self-loop is not reused). -/
lemma addTransition_after_eps (L : List Str) (sfx : List State) :
    (⟨chainBody L 0 ++ (sfx ++ [⟨[], [⟨star, L.length + sfx.length⟩], none⟩])⟩ : Nfa).addTransition
        (L.length + sfx.length) star =
      (⟨chainBody L 0 ++ (sfx ++
          [⟨[], [⟨star, L.length + sfx.length⟩, ⟨star, L.length + sfx.length + 1⟩], none⟩,
           State.new])⟩,
       L.length + sfx.length + 1) := by
  have htr : (⟨chainBody L 0 ++ (sfx ++ [⟨[], [⟨star, L.length + sfx.length⟩], none⟩])⟩ : Nfa).transitionsFrom
      (L.length + sfx.length) = [⟨star, L.length + sfx.length⟩] := by
    rw [transitions_at]
    rw [List.getD, List.get?_append_right (le_refl _)]
    simp [List.getD]
  rw [Nfa.addTransition, htr]
  have hfind : ([⟨star, L.length + sfx.length⟩] : List Transition).find?
      (fun t => t.path_segment = star && t.target ≠ L.length + sfx.length) = none := by
    simp
  rw [hfind]
  have haddst := addState_suffix L (sfx ++ [⟨[], [⟨star, L.length + sfx.length⟩], none⟩])
  rw [haddst]
  dsimp only
  have hlen2 : (sfx ++ [(⟨[], [⟨star, L.length + sfx.length⟩], none⟩ : State)]).length =
      sfx.length + 1 := by simp
  rw [hlen2]
  have harith : L.length + (sfx.length + 1) = L.length + sfx.length + 1 := by omega
  rw [harith]
  have hm := modify_at L ((sfx ++ [⟨[], [⟨star, L.length + sfx.length⟩], none⟩]) ++ [State.new])
      sfx.length (fun s => s.pushTransition ⟨star, L.length + sfx.length + 1⟩)
  have hgd : (((sfx ++ [(⟨[], [⟨star, L.length + sfx.length⟩], none⟩ : State)]) ++ [State.new])).getD
      sfx.length State.new = ⟨[], [⟨star, L.length + sfx.length⟩], none⟩ := by
    rw [List.append_assoc, List.getD, List.get?_append_right (le_refl _)]
    simp [List.getD]
  rw [hgd] at hm
  rw [hm]
  have hset : ((sfx ++ [(⟨[], [⟨star, L.length + sfx.length⟩], none⟩ : State)]) ++ [State.new]).set
      sfx.length ((⟨[], [⟨star, L.length + sfx.length⟩], none⟩ : State).pushTransition
        ⟨star, L.length + sfx.length + 1⟩) =
      sfx ++ [⟨[], [⟨star, L.length + sfx.length⟩, ⟨star, L.length + sfx.length + 1⟩], none⟩,
        State.new] := by
    have h := set_append_add sfx
      ([(⟨[], [⟨star, L.length + sfx.length⟩], none⟩ : State)] ++ [State.new]) 0
      ((⟨[], [⟨star, L.length + sfx.length⟩], none⟩ : State).pushTransition
        ⟨star, L.length + sfx.length + 1⟩)
    simp only [Nat.add_zero] at h
    rw [List.append_assoc, h]
    rfl
  rw [hset]

/-- Compiled form of an anchored `**`-free pattern whose final segment is
`*` (no trailing slash): a chain with the terminal at its end and no
epsilon edge, so matching is non-recursive. -/
def nfaB (L : List Str) : Nfa :=
  ⟨chainBody L 0 ++ [⟨[0], [], none⟩]⟩

/-- Compiled form of `P + "/"` for anchored `**`-free `P` with final segment
not `*`: the chain, one `*` link, then the recursive epsilon tail. -/
def nfaC (L : List Str) : Nfa :=
  ⟨chainBody (L ++ [star]) 0 ++
    [⟨[], [], some (L.length + 2)⟩, ⟨[0], [⟨star, L.length + 2⟩], none⟩]⟩

/-- Compiled form of `P + "/**"` for the same `P`: the chain, a coalesced
epsilon state with self-loop, one `*` link, then the recursive epsilon
tail. -/
def nfaD (L : List Str) : Nfa :=
  ⟨chainBody L 0 ++
    [⟨[], [], some (L.length + 1)⟩,
     ⟨[], [⟨star, L.length + 1⟩, ⟨star, L.length + 2⟩], none⟩,
     ⟨[], [], some (L.length + 3)⟩,
     ⟨[0], [⟨star, L.length + 3⟩], none⟩]⟩

/-! ### Strip and split lemmas for appended suffixes -/

lemma stripLead_append (p ys : Str) (hp : p ≠ []) :
    stripLead (p ++ ys) = ((stripLead p).1 ++ ys, (stripLead p).2) := by
  cases p with
  | nil => cases hp rfl
  | cons c rest =>
    rw [List.cons_append]
    by_cases hc : c = '/'
    · simp [stripLead, hc]
    · simp [stripLead, hc]

lemma stripTrail_slash (xs : Str) : stripTrail (xs ++ ['/']) = (xs, true) := by
  rw [stripTrail, if_pos (by rw [List.getLast?_concat])]
  rw [List.dropLast_concat]

lemma stripTrail_id (q : Str) (h : q.getLast? ≠ some '/') :
    stripTrail q = (q, false) := by
  rw [stripTrail, if_neg h]

lemma stripLead_getLast (p : Str) (h : p.getLast? ≠ some '/') :
    (stripLead p).1.getLast? ≠ some '/' := by
  cases p with
  | nil => simp [stripLead]
  | cons c rest =>
    by_cases hc : c = '/'
    · rw [stripLead, if_pos hc]
      cases rest with
      | nil =>
        rw [hc] at h
        exact absurd rfl h
      | cons r rs =>
        intro hcon
        apply h
        rw [List.getLast?_cons_cons]
        exact hcon
    · rw [stripLead, if_neg hc]
      exact h

lemma splitSlash_append (xs ys : Str) :
    splitSlash (xs ++ '/' :: ys) = splitSlash xs ++ splitSlash ys := by
  induction xs with
  | nil => simp [splitSlash]
  | cons c rest ih =>
    rw [List.cons_append]
    by_cases hc : c = '/'
    · simp only [splitSlash, if_pos hc, ih]
      rfl
    · simp only [splitSlash, if_neg hc, ih]
      cases hsr : splitSlash rest with
      | nil => exact absurd hsr (splitSlash_ne_nil rest)
      | cons s ss =>
        rw [hsr] at ih
        simp only [splitSlash, if_neg hc, ih, hsr]
        rfl

lemma splitSlash_star2 : splitSlash star2 = [star2] := rfl

/-- The last element of a nonempty-list append. -/
lemma getLast?_append_cons (xs : Str) (c : Char) (ys : Str) :
    (xs ++ c :: ys).getLast? = (c :: ys).getLast? := by
  induction xs with
  | nil => rfl
  | cons x xs ih =>
    rw [List.cons_append]
    cases hxs : xs ++ c :: ys with
    | nil => exact absurd hxs (by simp)
    | cons a as =>
      rw [List.getLast?_cons_cons, ← hxs, ih]

lemma startState_root (n : Nfa) (lead : Bool) (segs : List Str)
    (h : lead = true ∨ segs.length ≠ 1) :
    Builder.startState n lead segs = (n, 0) := by
  rw [Builder.startState]
  rcases h with h | h
  · rw [h]
    simp
  · simp [h]

lemma chainNfa_nil : chainNfa [] = Nfa.new := rfl

/-- Compiling a single anchored `**`-free pattern ending in `*` (without a
trailing slash) yields exactly the chain NFA with a terminal final state. -/
lemma add_shapeB (p : Str)
    (hanch : (stripLead p).2 = true ∨ (patSegments p).length ≠ 1)
    (hstar2 : ¬ star2 ∈ patSegments p)
    (htrail : (stripTrail (stripLead p).1).2 = false)
    (hlast : (patSegments p).getLast? = some star) :
    (Builder.new.add p).1 = ⟨nfaB (patSegments p), 1⟩ := by
  have e1 : Builder.startState Builder.new.nfa (stripLead p).2
      (splitSlash (stripTrail (stripLead p).1).1) = (Nfa.new, 0) :=
    startState_root _ _ _ hanch
  have e2 : (splitSlash (stripTrail (stripLead p).1).1).foldl
      Builder.addSegment (Nfa.new, 0) =
      (chainNfa (patSegments p), (patSegments p).length) := by
    have h := foldSegs_chain (patSegments p) [] hstar2
    rw [chainNfa_nil] at h
    simpa [patSegments] using h
  have e3 : Builder.addTail (chainNfa (patSegments p)) (patSegments p).length
      (stripTrail (stripLead p).1).2 (splitSlash (stripTrail (stripLead p).1).1) =
      (chainNfa (patSegments p), (patSegments p).length) := by
    rw [Builder.addTail, htrail]
    have hl : splitSlash (stripTrail (stripLead p).1).1 = patSegments p := rfl
    rw [hl, hlast]
    have hcond : ¬ ((false || decide (some star = some star2)) = true) := by decide
    rw [if_neg hcond]
    dsimp only
    rw [if_neg (by simp)]
  have hadd : Builder.new.add p = (⟨(chainNfa (patSegments p)).modifyState
      (patSegments p).length (fun s => s.markAsTerminal Builder.new.next_pattern_id),
      Builder.new.next_pattern_id + 1⟩, Builder.new.next_pattern_id) := by
    rw [Builder.add, e1, e2, e3]
  rw [hadd]
  have hm := modify_at (patSegments p) [State.new] 0
      (fun s => s.markAsTerminal Builder.new.next_pattern_id)
  simp only [Nat.add_zero] at hm
  rw [show chainNfa (patSegments p) = ⟨chainBody (patSegments p) 0 ++ [State.new]⟩ from rfl,
    hm]
  rfl

lemma patSegments_ne_nil (p : Str) : patSegments p ≠ [] :=
  splitSlash_ne_nil _

lemma patSegments_getLast (p : Str) : ∃ l, (patSegments p).getLast? = some l := by
  cases h : (patSegments p).getLast? with
  | none => exact absurd (List.getLast?_eq_none_iff.mp h) (patSegments_ne_nil p)
  | some l => exact ⟨l, rfl⟩

/-- Compiling `P + "/"` alone, for anchored `**`-free `P` not ending in `/`
whose final segment is not `*`, yields `nfaC`. -/
lemma add_shapeC (p : Str) (hp : p ≠ []) (hslash : p.getLast? ≠ some '/')
    (hanch : (stripLead p).2 = true ∨ (patSegments p).length ≠ 1)
    (hstar2 : ¬ star2 ∈ patSegments p)
    (hlast : (patSegments p).getLast? ≠ some star) :
    (Builder.new.add (p ++ ['/'])).1 = ⟨nfaC (patSegments p), 1⟩ := by
  have hq := stripLead_append p ['/'] hp
  have hq2 := stripTrail_slash (stripLead p).1
  have hL : patSegments p = splitSlash (stripLead p).1 := by
    rw [patSegments, stripTrail_id _ (stripLead_getLast p hslash)]
  have hfold : (patSegments p).foldl Builder.addSegment (Nfa.new, 0) =
      (chainNfa (patSegments p), (patSegments p).length) := by
    have h := foldSegs_chain (patSegments p) [] hstar2
    rw [chainNfa_nil] at h
    simpa using h
  have e1 : Builder.startState Builder.new.nfa (stripLead (p ++ ['/'])).2
      (splitSlash (stripTrail (stripLead (p ++ ['/'])).1).1) = (Nfa.new, 0) := by
    rw [hq]
    dsimp only
    rw [hq2]
    dsimp only
    rw [← hL]
    exact startState_root _ _ _ hanch
  have e2 : (splitSlash (stripTrail (stripLead (p ++ ['/'])).1).1).foldl
      Builder.addSegment (Nfa.new, 0) =
      (chainNfa (patSegments p), (patSegments p).length) := by
    rw [hq]
    dsimp only
    rw [hq2]
    dsimp only
    rw [← hL]
    exact hfold
  obtain ⟨last, hl⟩ := patSegments_getLast p
  have he : (chainNfa (patSegments p ++ [star])).addEpsilonTransition
      ((patSegments p).length + 1) =
      (⟨chainBody (patSegments p ++ [star]) 0 ++
          [⟨[], [], some ((patSegments p).length + 2)⟩,
           ⟨[], [⟨star, (patSegments p).length + 2⟩], none⟩]⟩,
       (patSegments p).length + 2) := by
    have h := addEps_end (patSegments p ++ [star]) []
    simp only [List.length_nil, Nat.add_zero, List.nil_append] at h
    rw [show (patSegments p ++ [star]).length = (patSegments p).length + 1 by simp] at h
    exact h
  have e3 : Builder.addTail (chainNfa (patSegments p)) (patSegments p).length
      (stripTrail (stripLead (p ++ ['/'])).1).2
      (splitSlash (stripTrail (stripLead (p ++ ['/'])).1).1) =
      (⟨chainBody (patSegments p ++ [star]) 0 ++
          [⟨[], [], some ((patSegments p).length + 2)⟩,
           ⟨[], [⟨star, (patSegments p).length + 2⟩], none⟩]⟩,
       (patSegments p).length + 2) := by
    rw [hq]
    dsimp only
    rw [hq2]
    dsimp only
    rw [← hL]
    rw [Builder.addTail]
    rw [if_pos (by simp)]
    rw [addTransition_chain]
    rw [hl]
    dsimp only
    rw [if_pos (fun hc => hlast (by rw [hl, hc]))]
    exact he
  have hadd : Builder.new.add (p ++ ['/']) =
      (⟨(⟨chainBody (patSegments p ++ [star]) 0 ++
            [⟨[], [], some ((patSegments p).length + 2)⟩,
             ⟨[], [⟨star, (patSegments p).length + 2⟩], none⟩]⟩ : Nfa).modifyState
          ((patSegments p).length + 2)
          (fun s => s.markAsTerminal Builder.new.next_pattern_id),
        Builder.new.next_pattern_id + 1⟩, Builder.new.next_pattern_id) := by
    rw [Builder.add, e1, e2, e3]
  rw [hadd]
  have hm := modify_at (patSegments p ++ [star])
      [⟨[], [], some ((patSegments p).length + 2)⟩,
       ⟨[], [⟨star, (patSegments p).length + 2⟩], none⟩] 1
      (fun s => s.markAsTerminal Builder.new.next_pattern_id)
  rw [show (patSegments p ++ [star]).length + 1 = (patSegments p).length + 2 by simp] at hm
  rw [hm]
  rfl

/-- Compiling `P + "/**"` alone, for the same class of `P`, yields `nfaD`. -/
lemma add_shapeD (p : Str) (hp : p ≠ []) (hslash : p.getLast? ≠ some '/')
    (hstar2 : ¬ star2 ∈ patSegments p) :
    (Builder.new.add (p ++ '/' :: star2)).1 = ⟨nfaD (patSegments p), 1⟩ := by
  have hq := stripLead_append p ('/' :: star2) hp
  have hq2 : stripTrail ((stripLead p).1 ++ '/' :: star2) =
      ((stripLead p).1 ++ '/' :: star2, false) := by
    apply stripTrail_id
    rw [getLast?_append_cons]
    decide
  have hL : patSegments p = splitSlash (stripLead p).1 := by
    rw [patSegments, stripTrail_id _ (stripLead_getLast p hslash)]
  have hsegs : splitSlash ((stripLead p).1 ++ '/' :: star2) =
      patSegments p ++ [star2] := by
    rw [splitSlash_append, splitSlash_star2, hL]
  have hLlen : 1 ≤ (patSegments p).length :=
    List.length_pos.mpr (patSegments_ne_nil p)
  have hfold : (patSegments p).foldl Builder.addSegment (Nfa.new, 0) =
      (chainNfa (patSegments p), (patSegments p).length) := by
    have h := foldSegs_chain (patSegments p) [] hstar2
    rw [chainNfa_nil] at h
    simpa using h
  have heD : (chainNfa (patSegments p)).addEpsilonTransition (patSegments p).length =
      (⟨chainBody (patSegments p) 0 ++
          [⟨[], [], some ((patSegments p).length + 1)⟩,
           ⟨[], [⟨star, (patSegments p).length + 1⟩], none⟩]⟩,
       (patSegments p).length + 1) := by
    have h := addEps_end (patSegments p) []
    simp only [List.length_nil, Nat.add_zero, List.nil_append] at h
    exact h
  have e1 : Builder.startState Builder.new.nfa (stripLead (p ++ '/' :: star2)).2
      (splitSlash (stripTrail (stripLead (p ++ '/' :: star2)).1).1) = (Nfa.new, 0) := by
    rw [hq]
    dsimp only
    rw [hq2]
    dsimp only
    rw [hsegs]
    apply startState_root
    right
    simp only [List.length_append, List.length_cons, List.length_nil]
    omega
  have e2 : (splitSlash (stripTrail (stripLead (p ++ '/' :: star2)).1).1).foldl
      Builder.addSegment (Nfa.new, 0) =
      (⟨chainBody (patSegments p) 0 ++
          [⟨[], [], some ((patSegments p).length + 1)⟩,
           ⟨[], [⟨star, (patSegments p).length + 1⟩], none⟩]⟩,
       (patSegments p).length + 1) := by
    rw [hq]
    dsimp only
    rw [hq2]
    dsimp only
    rw [hsegs, List.foldl_append, hfold, List.foldl_cons, List.foldl_nil,
      Builder.addSegment, if_pos rfl]
    exact heD
  have hat : (⟨chainBody (patSegments p) 0 ++
        [⟨[], [], some ((patSegments p).length + 1)⟩,
         ⟨[], [⟨star, (patSegments p).length + 1⟩], none⟩]⟩ : Nfa).addTransition
      ((patSegments p).length + 1) star =
      (⟨chainBody (patSegments p) 0 ++
          [⟨[], [], some ((patSegments p).length + 1)⟩,
           ⟨[], [⟨star, (patSegments p).length + 1⟩,
                 ⟨star, (patSegments p).length + 2⟩], none⟩,
           State.new]⟩,
       (patSegments p).length + 2) := by
    have h := addTransition_after_eps (patSegments p) [⟨[], [], some ((patSegments p).length + 1)⟩]
    exact h
  have he2 : (⟨chainBody (patSegments p) 0 ++
        [⟨[], [], some ((patSegments p).length + 1)⟩,
         ⟨[], [⟨star, (patSegments p).length + 1⟩,
               ⟨star, (patSegments p).length + 2⟩], none⟩,
         State.new]⟩ : Nfa).addEpsilonTransition ((patSegments p).length + 2) =
      (⟨chainBody (patSegments p) 0 ++
          [⟨[], [], some ((patSegments p).length + 1)⟩,
           ⟨[], [⟨star, (patSegments p).length + 1⟩,
                 ⟨star, (patSegments p).length + 2⟩], none⟩,
           ⟨[], [], some ((patSegments p).length + 3)⟩,
           ⟨[], [⟨star, (patSegments p).length + 3⟩], none⟩]⟩,
       (patSegments p).length + 3) := by
    have h := addEps_end (patSegments p)
      [⟨[], [], some ((patSegments p).length + 1)⟩,
       ⟨[], [⟨star, (patSegments p).length + 1⟩,
             ⟨star, (patSegments p).length + 2⟩], none⟩]
    exact h
  have e3 : Builder.addTail
      (⟨chainBody (patSegments p) 0 ++
          [⟨[], [], some ((patSegments p).length + 1)⟩,
           ⟨[], [⟨star, (patSegments p).length + 1⟩], none⟩]⟩ : Nfa)
      ((patSegments p).length + 1)
      (stripTrail (stripLead (p ++ '/' :: star2)).1).2
      (splitSlash (stripTrail (stripLead (p ++ '/' :: star2)).1).1) =
      (⟨chainBody (patSegments p) 0 ++
          [⟨[], [], some ((patSegments p).length + 1)⟩,
           ⟨[], [⟨star, (patSegments p).length + 1⟩,
                 ⟨star, (patSegments p).length + 2⟩], none⟩,
           ⟨[], [], some ((patSegments p).length + 3)⟩,
           ⟨[], [⟨star, (patSegments p).length + 3⟩], none⟩]⟩,
       (patSegments p).length + 3) := by
    rw [hq]
    dsimp only
    rw [hq2]
    dsimp only
    rw [hsegs]
    rw [Builder.addTail]
    rw [if_pos (by rw [List.getLast?_concat]; simp)]
    rw [hat]
    rw [List.getLast?_concat]
    dsimp only
    rw [if_pos (by decide)]
    exact he2
  have hadd : Builder.new.add (p ++ '/' :: star2) =
      (⟨(⟨chainBody (patSegments p) 0 ++
            [⟨[], [], some ((patSegments p).length + 1)⟩,
             ⟨[], [⟨star, (patSegments p).length + 1⟩,
                   ⟨star, (patSegments p).length + 2⟩], none⟩,
             ⟨[], [], some ((patSegments p).length + 3)⟩,
             ⟨[], [⟨star, (patSegments p).length + 3⟩], none⟩]⟩ : Nfa).modifyState
          ((patSegments p).length + 3)
          (fun s => s.markAsTerminal Builder.new.next_pattern_id),
        Builder.new.next_pattern_id + 1⟩, Builder.new.next_pattern_id) := by
    rw [Builder.add, e1, e2, e3]
  rw [hadd]
  have hm := modify_at (patSegments p)
      [⟨[], [], some ((patSegments p).length + 1)⟩,
       ⟨[], [⟨star, (patSegments p).length + 1⟩,
             ⟨star, (patSegments p).length + 2⟩], none⟩,
       ⟨[], [], some ((patSegments p).length + 3)⟩,
       ⟨[], [⟨star, (patSegments p).length + 3⟩], none⟩] 3
      (fun s => s.markAsTerminal Builder.new.next_pattern_id)
  rw [hm]
  rfl

/-! ## Matching characterization on chain-shaped NFAs -/

/-- Segment-wise matching of all of `path` against `L` starting at offset
`k`. -/
def pmAll (L : List Str) (k : Nat) : List Str → Bool
  | [] => true
  | s :: rest => segMatch (L.getD k []) s && pmAll L (k + 1) rest

lemma pmAll_iff (L : List Str) (k : Nat) (path : List Str) :
    pmAll L k path = true ↔
      ∀ i, i < path.length → segMatch (L.getD (k + i) []) (path.getD i []) = true := by
  induction path generalizing k with
  | nil => simp [pmAll]
  | cons s rest ih =>
    rw [pmAll, Bool.and_eq_true, ih]
    constructor
    · rintro ⟨h0, hr⟩ i hi
      cases i with
      | zero => simpa using h0
      | succ i =>
        have := hr i (by simpa using Nat.lt_of_succ_lt_succ hi)
        have harith : k + (i + 1) = k + 1 + i := by omega
        rw [harith]
        simpa [List.getD] using this
    · intro h
      refine ⟨by simpa using h 0 (by simp), ?_⟩
      intro i hi
      have := h (i + 1) (by simpa using Nat.succ_lt_succ hi)
      have harith : k + (i + 1) = k + 1 + i := by omega
      rw [harith] at this
      simpa [List.getD] using this

lemma stepStates_nil (n : Nfa) (s : Str) : n.stepStates [] s = [] := rfl

lemma nextStates_nil_start (n : Nfa) (path : List Str) :
    n.nextStates path [] = [] := by
  induction path with
  | nil => rfl
  | cons s rest ih =>
    rw [Nfa.nextStates, List.foldl_cons, stepStates_nil]
    exact ih

lemma stepStates_single (n : Nfa) (k : Nat) (s : Str) :
    n.stepStates [k] s =
      (let tgts := ((n.state k).transitions.filter fun t =>
          segMatch t.path_segment s).map Transition.target
       tgts ++ tgts.filterMap fun sid => (n.state sid).epsilon_transition) := by
  rw [Nfa.stepStates]
  simp [Nfa.transitionsFrom, Nfa.epsilonFrom]

/-- One matching step on the shape-B NFA from a chain position. -/
lemma stepB (L : List Str) (k : Nat) (s : Str) :
    (nfaB L).stepStates [k] s =
      if k < L.length && segMatch (L.getD k []) s then [k + 1] else [] := by
  have hst : ∀ j, (nfaB L).state j =
      if j < L.length then ⟨[], [⟨L.getD j [], j + 1⟩], none⟩
      else ([(⟨[0], [], none⟩ : State)]).getD (j - L.length) State.new :=
    fun j => chainSuffix_state L [⟨[0], [], none⟩] j
  rw [stepStates_single]
  by_cases hk : k < L.length
  · rw [hst k, if_pos hk]
    dsimp only
    by_cases hm : segMatch (L.getD k []) s
    · have hfil : (([⟨L.getD k [], k + 1⟩] : List Transition).filter fun t =>
          segMatch t.path_segment s) = [⟨L.getD k [], k + 1⟩] := by
        rw [List.filter_cons, if_pos (by exact hm), List.filter_nil]
      rw [hfil]
      have h2 : ((nfaB L).state (k + 1)).epsilon_transition = none := by
        rw [hst (k + 1)]
        by_cases h : k + 1 < L.length
        · rw [if_pos h]
        · rw [if_neg h]
          cases hke : k + 1 - L.length with
          | zero => rfl
          | succ m =>
            rw [List.getD_eq_default _ _ (by simp)]
            rfl
      rw [if_pos (by simp only [Bool.and_eq_true, decide_eq_true_eq]
                     exact ⟨hk, hm⟩)]
      simp only [List.map_cons, List.map_nil, List.filterMap_cons, h2, List.filterMap_nil]
      rfl
    · simp only [Bool.not_eq_true] at hm
      have hfil : (([⟨L.getD k [], k + 1⟩] : List Transition).filter fun t =>
          segMatch t.path_segment s) = [] := by
        rw [List.filter_cons, if_neg (by rw [hm]; exact Bool.false_ne_true),
          List.filter_nil]
      rw [hfil]
      rw [if_neg (by
        simp only [Bool.and_eq_true, decide_eq_true_eq, hm]
        rintro ⟨-, hc⟩
        cases hc)]
      rfl
  · rw [hst k, if_neg hk]
    rw [if_neg (by
      simp only [Bool.and_eq_true, decide_eq_true_eq]
      rintro ⟨hc, -⟩
      exact hk hc)]
    cases hke : k - L.length with
    | zero => rfl
    | succ m =>
      rw [List.getD_eq_default _ _ (by simp)]
      rfl

/-- The active set of the shape-B NFA started at chain position `k`. -/
lemma shapeB_nextStates (L path : List Str) (k : Nat) (hk : k ≤ L.length) :
    (nfaB L).nextStates path [k] =
      if decide (k + path.length ≤ L.length) && pmAll L k path
      then [k + path.length] else [] := by
  induction path generalizing k with
  | nil =>
    simp [Nfa.nextStates, pmAll, hk]
  | cons s rest ih =>
    rw [Nfa.nextStates, List.foldl_cons]
    rw [stepB]
    rw [List.length_cons, pmAll]
    by_cases hcase : k < L.length && segMatch (L.getD k []) s
    · rw [if_pos hcase]
      simp only [Bool.and_eq_true, decide_eq_true_eq] at hcase
      have hrec := ih (k + 1) hcase.1
      rw [Nfa.nextStates] at hrec
      rw [hrec, hcase.2]
      simp only [Bool.true_and]
      by_cases hc2 : decide (k + 1 + rest.length ≤ L.length) && pmAll L (k + 1) rest
      · rw [if_pos hc2]
        simp only [Bool.and_eq_true, decide_eq_true_eq] at hc2
        rw [if_pos (by simp only [Bool.and_eq_true, decide_eq_true_eq]
                       exact ⟨by omega, hc2.2⟩)]
        congr 1
        omega
      · rw [if_neg hc2]
        simp only [Bool.and_eq_true, decide_eq_true_eq, not_and] at hc2
        rw [if_neg (by
          simp only [Bool.and_eq_true, decide_eq_true_eq, not_and]
          intro h1 h2
          exact hc2 (by omega) h2)]
    · rw [if_neg hcase]
      have hnil := nextStates_nil_start (nfaB L) rest
      rw [Nfa.nextStates] at hnil
      rw [hnil]
      simp only [Bool.and_eq_true, decide_eq_true_eq, not_and, Bool.not_eq_true] at hcase
      by_cases hklen : k < L.length
      · have hsm := hcase hklen
        rw [hsm]
        simp
      · rw [if_neg (by
          simp only [Bool.and_eq_true, decide_eq_true_eq, not_and]
          intro h1
          omega)]

lemma getLast?_getD (L : List Str) (a : Str) (h : L.getLast? = some a) :
    L.getD (L.length - 1) [] = a := by
  induction L with
  | nil => cases h
  | cons x xs ih =>
    cases xs with
    | nil => simpa using h
    | cons y ys =>
      rw [List.getLast?_cons_cons] at h
      have hprev := ih h
      have hlen : (x :: y :: ys).length - 1 = ((y :: ys).length - 1) + 1 := by
        simp
      rw [hlen]
      have : (x :: y :: ys).getD (((y :: ys).length - 1) + 1) [] =
          (y :: ys).getD ((y :: ys).length - 1) [] := by
        simp [List.getD]
      rw [this]
      exact hprev

lemma shapeB_initial (L : List Str) (hL : L ≠ []) :
    (nfaB L).initialStates = [0] := by
  rw [Nfa.initialStates]
  have hst : (nfaB L).state 0 =
      if 0 < L.length then ⟨[], [⟨L.getD 0 [], 0 + 1⟩], none⟩
      else ([(⟨[0], [], none⟩ : State)]).getD (0 - L.length) State.new :=
    chainSuffix_state L [⟨[0], [], none⟩] 0
  have h0 : ((nfaB L).state 0).epsilon_transition = none := by
    rw [hst, if_pos (List.length_pos.mpr hL)]
  rw [h0]

/-- Matching on the shape-B NFA: the path must have exactly the chain's
length and match it segment-wise. -/
lemma shapeB_matching (L : List Str) (hL : L ≠ []) (path : List Str) :
    0 ∈ (nfaB L).matchingPatterns path ↔
      (path.length = L.length ∧ pmAll L 0 path = true) := by
  have hst : ∀ j, (nfaB L).state j =
      if j < L.length then ⟨[], [⟨L.getD j [], j + 1⟩], none⟩
      else ([(⟨[0], [], none⟩ : State)]).getD (j - L.length) State.new :=
    fun j => chainSuffix_state L [⟨[0], [], none⟩] j
  rw [mem_matchingPatterns, Nfa.finalStates, shapeB_initial L hL,
    shapeB_nextStates L path 0 (Nat.zero_le _)]
  constructor
  · rintro ⟨sid, hsid, hterm⟩
    by_cases hcond : decide (0 + path.length ≤ L.length) && pmAll L 0 path
    · rw [if_pos hcond] at hsid
      simp only [Bool.and_eq_true, decide_eq_true_eq] at hcond
      have hsid' : sid = path.length := by simpa using hsid
      rw [hsid'] at hterm
      rw [hst path.length] at hterm
      by_cases hlt : path.length < L.length
      · rw [if_pos hlt] at hterm
        cases hterm
      · have heq : path.length = L.length := by omega
        exact ⟨heq, hcond.2⟩
    · rw [if_neg hcond] at hsid
      cases hsid
  · rintro ⟨hlen, hpm⟩
    refine ⟨path.length, ?_, ?_⟩
    · rw [if_pos (by simp only [Bool.and_eq_true, decide_eq_true_eq]
                     exact ⟨by omega, hpm⟩)]
      simp
    · rw [hst path.length, if_neg (by omega), hlen, Nat.sub_self]
      simp [List.getD]

/-! ## Shape C and D machinery (trailing slash vs trailing double-star) -/

lemma pmAll_snoc (L : List Str) (k : Nat) (xs : List Str) (s : Str) :
    pmAll L k (xs ++ [s]) =
      (pmAll L k xs && segMatch (L.getD (k + xs.length) []) s) := by
  induction xs generalizing k with
  | nil => simp [pmAll]
  | cons x xs ih =>
    rw [List.cons_append]
    simp only [pmAll]
    rw [ih, ← Bool.and_assoc]
    have harith : k + 1 + xs.length = k + (x :: xs).length := by
      simp only [List.length_cons]
      omega
    rw [harith]

lemma getD_append_left' (L M : List Str) (k : Nat) (h : k < L.length) :
    (L ++ M).getD k [] = L.getD k [] := by
  rw [List.getD, List.getD, List.get?_append (by simpa using h)]

lemma getD_append_self (L M : List Str) :
    (L ++ M).getD L.length [] = M.getD 0 [] := by
  rw [List.getD, List.getD, List.get?_append_right (le_refl _), Nat.sub_self]

lemma pmAll_append_left (L M : List Str) (k : Nat) (xs : List Str)
    (h : k + xs.length ≤ L.length) :
    pmAll (L ++ M) k xs = pmAll L k xs := by
  induction xs generalizing k with
  | nil => rfl
  | cons x xs ih =>
    simp only [pmAll]
    rw [getD_append_left' L M k (by simp only [List.length_cons] at h; omega),
      ih (k + 1) (by simp only [List.length_cons] at h; omega)]

lemma take_snoc (xs : List Str) (s : Str) (m : Nat) :
    (xs ++ [s]).take m = if m ≤ xs.length then xs.take m else xs ++ [s] := by
  by_cases h : m ≤ xs.length
  · rw [if_pos h, List.take_append_of_le_length h]
  · rw [if_neg h]
    exact List.take_of_length_le (by simp; omega)

lemma take_succ_getD (l : List Str) (n : Nat) (h : n < l.length) :
    l.take (n + 1) = l.take n ++ [l.getD n []] := by
  rw [List.take_succ]
  congr 1
  rw [List.getD_eq_getElem?_getD]
  simp [List.getElem?_eq_getElem h]

lemma length_take_of_le (l : List Str) (n : Nat) (h : n ≤ l.length) :
    (l.take n).length = n := by
  rw [List.length_take]
  omega

/-- Suffix-state transition lists of the shape-C NFA. -/
lemma stepC_state (L : List Str) : ∀ j, (nfaC L).state j =
    if j < L.length + 1 then ⟨[], [⟨(L ++ [star]).getD j [], j + 1⟩], none⟩
    else ([⟨[], [], some (L.length + 2)⟩,
           ⟨[0], [⟨star, L.length + 2⟩], none⟩] : List State).getD
      (j - (L.length + 1)) State.new := by
  intro j
  have h := chainSuffix_state (L ++ [star])
    [⟨[], [], some (L.length + 2)⟩, ⟨[0], [⟨star, L.length + 2⟩], none⟩] j
  rw [show (L ++ [star]).length = L.length + 1 by simp] at h
  exact h

/-- One matching step on the shape-C NFA from an interior chain position. -/
lemma stepC_chain (L : List Str) (k : Nat) (s : Str) (hk : k < L.length) :
    (nfaC L).stepStates [k] s =
      if segMatch (L.getD k []) s then [k + 1] else [] := by
  rw [stepStates_single, stepC_state L k, if_pos (by omega)]
  dsimp only
  rw [getD_append_left' L [star] k hk]
  by_cases hm : segMatch (L.getD k []) s
  · rw [if_pos hm]
    rw [show (([⟨L.getD k [], k + 1⟩] : List Transition).filter fun t =>
        segMatch t.path_segment s) = [⟨L.getD k [], k + 1⟩] from by
      rw [List.filter_cons, if_pos (by exact hm), List.filter_nil]]
    have h2 : ((nfaC L).state (k + 1)).epsilon_transition = none := by
      rw [stepC_state L (k + 1), if_pos (by omega)]
    simp only [List.map_cons, List.map_nil, List.filterMap_cons]
    rw [h2]
    rfl
  · simp only [Bool.not_eq_true] at hm
    rw [if_neg (by rw [hm]; exact Bool.false_ne_true)]
    rw [show (([⟨L.getD k [], k + 1⟩] : List Transition).filter fun t =>
        segMatch t.path_segment s) = [] from by
      rw [List.filter_cons, if_neg (by rw [hm]; exact Bool.false_ne_true),
        List.filter_nil]]
    rfl

/-- Step from the last chain position: consume the `*` link and pull in the
epsilon target. -/
lemma stepC_end (L : List Str) (s : Str) :
    (nfaC L).stepStates [L.length] s = [L.length + 1, L.length + 2] := by
  rw [stepStates_single, stepC_state L L.length, if_pos (by omega)]
  dsimp only
  have hgd : (L ++ [star]).getD L.length [] = star := by
    rw [getD_append_self]
    rfl
  rw [hgd]
  rw [show (([⟨star, L.length + 1⟩] :
      List Transition).filter fun t => segMatch t.path_segment s) =
      [⟨star, L.length + 1⟩] from by
    rw [List.filter_cons, if_pos (by rw [segMatch_star]), List.filter_nil]]
  have h2 : ((nfaC L).state (L.length + 1)).epsilon_transition =
      some (L.length + 2) := by
    rw [stepC_state L (L.length + 1), if_neg (by omega), Nat.sub_self]
    rfl
  simp only [List.map_cons, List.map_nil, List.filterMap_cons]
  rw [h2]
  rfl

/-- Step from the two-state tail `{eps, loop}` of shape C. -/
lemma stepC_tail (L : List Str) (s : Str) :
    (nfaC L).stepStates [L.length + 1, L.length + 2] s = [L.length + 2] := by
  have ht1 : (nfaC L).transitionsFrom (L.length + 1) = [] := by
    rw [Nfa.transitionsFrom, stepC_state L (L.length + 1), if_neg (by omega),
      Nat.sub_self]
    rfl
  have ht2 : (nfaC L).transitionsFrom (L.length + 2) =
      [⟨star, L.length + 2⟩] := by
    rw [Nfa.transitionsFrom, stepC_state L (L.length + 2), if_neg (by omega),
      show L.length + 2 - (L.length + 1) = 1 from by omega]
    rfl
  have he2 : (nfaC L).epsilonFrom (L.length + 2) = none := by
    rw [Nfa.epsilonFrom, stepC_state L (L.length + 2), if_neg (by omega),
      show L.length + 2 - (L.length + 1) = 1 from by omega]
    rfl
  rw [Nfa.stepStates]
  simp only [List.flatMap_cons, List.flatMap_nil, ht1, ht2]
  rw [show (([⟨star, L.length + 2⟩] : List Transition).filter fun t =>
      segMatch t.path_segment s) = [⟨star, L.length + 2⟩] from by
    rw [List.filter_cons, if_pos (by rw [segMatch_star]), List.filter_nil]]
  simp only [List.filter_nil, List.map_nil, List.map_cons, List.nil_append,
    List.append_nil, List.filterMap_cons, he2, List.filterMap_nil]

/-- Step from the self-looping terminal of shape C. -/
lemma stepC_loop (L : List Str) (s : Str) :
    (nfaC L).stepStates [L.length + 2] s = [L.length + 2] := by
  have ht2 : (nfaC L).transitionsFrom (L.length + 2) =
      [⟨star, L.length + 2⟩] := by
    rw [Nfa.transitionsFrom, stepC_state L (L.length + 2), if_neg (by omega),
      show L.length + 2 - (L.length + 1) = 1 from by omega]
    rfl
  have he2 : (nfaC L).epsilonFrom (L.length + 2) = none := by
    rw [Nfa.epsilonFrom, stepC_state L (L.length + 2), if_neg (by omega),
      show L.length + 2 - (L.length + 1) = 1 from by omega]
    rfl
  rw [Nfa.stepStates]
  simp only [List.flatMap_cons, List.flatMap_nil, ht2]
  rw [show (([⟨star, L.length + 2⟩] : List Transition).filter fun t =>
      segMatch t.path_segment s) = [⟨star, L.length + 2⟩] from by
    rw [List.filter_cons, if_pos (by rw [segMatch_star]), List.filter_nil]]
  simp only [List.map_cons, List.map_nil, List.append_nil,
    List.filterMap_cons, he2, List.filterMap_nil]

lemma shapeC_initial (L : List Str) : (nfaC L).initialStates = [0] := by
  rw [Nfa.initialStates]
  have h0 : ((nfaC L).state 0).epsilon_transition = none := by
    rw [stepC_state L 0, if_pos (by omega)]
  rw [h0]

/-- The active set of the shape-C NFA after consuming `path` from the start
state. -/
lemma shapeC_nextStates (L path : List Str) :
    (nfaC L).nextStates path [0] =
      if pmAll (L ++ [star]) 0 (path.take (L.length + 1)) then
        (if path.length < L.length + 1 then [path.length]
         else if path.length = L.length + 1 then [L.length + 1, L.length + 2]
         else [L.length + 2])
      else [] := by
  induction path using List.reverseRecOn with
  | nil =>
    simp [Nfa.nextStates, pmAll]
  | append_singleton xs s ih =>
    rw [Nfa.nextStates, List.foldl_append, List.foldl_cons, List.foldl_nil]
    rw [show List.foldl (nfaC L).stepStates [0] xs = (nfaC L).nextStates xs [0]
      from rfl]
    rw [ih]
    have hlen : (xs ++ [s]).length = xs.length + 1 := by simp
    rw [hlen]
    by_cases hpm : pmAll (L ++ [star]) 0 (xs.take (L.length + 1)) = true
    · rw [if_pos hpm]
      by_cases h1 : xs.length < L.length
      · rw [if_pos (by omega), stepC_chain L xs.length s h1]
        have htake_old : xs.take (L.length + 1) = xs :=
          List.take_of_length_le (by omega)
        rw [htake_old] at hpm
        have htake_new : (xs ++ [s]).take (L.length + 1) = xs ++ [s] :=
          List.take_of_length_le (by simp; omega)
        rw [htake_new, pmAll_snoc, hpm, Bool.true_and, Nat.zero_add,
          getD_append_left' L [star] xs.length h1]
        by_cases hsm : segMatch (L.getD xs.length []) s = true
        · rw [if_pos hsm, if_pos hsm, if_pos (by omega)]
        · simp only [Bool.not_eq_true] at hsm
          rw [if_neg (by rw [hsm]; exact Bool.false_ne_true),
            if_neg (by rw [hsm]; exact Bool.false_ne_true)]
      · by_cases h2 : xs.length = L.length
        · rw [if_pos (by omega), h2, stepC_end]
          have htake_old : xs.take (L.length + 1) = xs :=
            List.take_of_length_le (by omega)
          rw [htake_old] at hpm
          have htake_new : (xs ++ [s]).take (L.length + 1) = xs ++ [s] :=
            List.take_of_length_le (by simp; omega)
          have hsm : segMatch ((L ++ [star]).getD (0 + xs.length) []) s =
              true := by
            rw [Nat.zero_add, h2]
            have hgd : (L ++ [star]).getD L.length [] = star := by
              rw [getD_append_self]
              rfl
            rw [hgd, segMatch_star]
          rw [htake_new, pmAll_snoc, hpm, hsm, Bool.true_and, if_pos rfl,
            if_neg (by omega), if_pos (by omega)]
        · have h3 : L.length + 1 ≤ xs.length := by omega
          have htake_new : (xs ++ [s]).take (L.length + 1) =
              xs.take (L.length + 1) := List.take_append_of_le_length h3
          rw [htake_new]
          by_cases h4 : xs.length = L.length + 1
          · rw [if_neg (by omega), if_pos h4, stepC_tail, if_pos hpm,
              if_neg (by omega), if_neg (by omega)]
          · rw [if_neg (by omega), if_neg h4, stepC_loop, if_pos hpm,
              if_neg (by omega), if_neg (by omega)]
    · rw [if_neg hpm, stepStates_nil]
      by_cases h1 : L.length + 1 ≤ xs.length
      · have htake_new : (xs ++ [s]).take (L.length + 1) =
            xs.take (L.length + 1) := List.take_append_of_le_length h1
        rw [htake_new, if_neg hpm]
      · have htake_old : xs.take (L.length + 1) = xs :=
          List.take_of_length_le (by omega)
        have htake_new : (xs ++ [s]).take (L.length + 1) = xs ++ [s] :=
          List.take_of_length_le (by simp; omega)
        rw [htake_old] at hpm
        rw [htake_new, if_neg (by
          rw [pmAll_snoc]
          intro hc
          exact hpm (Bool.and_eq_true_iff.mp hc).1)]

/-- Matching on the shape-C NFA: at least `|L| + 1` segments, the first
`|L| + 1` of which match the extended chain. -/
lemma shapeC_matching (L path : List Str) :
    0 ∈ (nfaC L).matchingPatterns path ↔
      (L.length + 1 ≤ path.length ∧
       pmAll (L ++ [star]) 0 (path.take (L.length + 1)) = true) := by
  rw [mem_matchingPatterns, Nfa.finalStates, shapeC_initial,
    shapeC_nextStates]
  constructor
  · rintro ⟨sid, hsid, hterm⟩
    by_cases hpm : pmAll (L ++ [star]) 0 (path.take (L.length + 1)) = true
    · rw [if_pos hpm] at hsid
      by_cases h1 : path.length < L.length + 1
      · rw [if_pos h1] at hsid
        have hsid' : sid = path.length := by simpa using hsid
        rw [hsid', stepC_state L path.length, if_pos h1] at hterm
        cases hterm
      · by_cases h2 : path.length = L.length + 1
        · refine ⟨by omega, hpm⟩
        · refine ⟨by omega, hpm⟩
    · rw [if_neg hpm] at hsid
      cases hsid
  · rintro ⟨hlen, hpm⟩
    refine ⟨L.length + 2, ?_, ?_⟩
    · rw [if_pos hpm]
      by_cases h2 : path.length = L.length + 1
      · rw [if_neg (by omega), if_pos h2]
        simp
      · rw [if_neg (by omega), if_neg h2]
        simp
    · rw [stepC_state L (L.length + 2), if_neg (by omega),
        show L.length + 2 - (L.length + 1) = 1 from by omega]
      simp [List.getD]

lemma flatMap_fixed_replicate (r a : Nat) (f : Nat → List Nat)
    (h : f a = [a]) :
    (List.replicate r a).flatMap f = List.replicate r a := by
  induction r with
  | zero => rfl
  | succ r ih =>
    rw [List.replicate_succ, List.flatMap_cons, h, ih]
    rfl

lemma filterMap_fixed_replicate (r a : Nat) (f : Nat → Option Nat)
    (h : f a = none) :
    (List.replicate r a).filterMap f = [] := by
  induction r with
  | zero => rfl
  | succ r ih =>
    simp only [List.replicate_succ, List.filterMap_cons, h]
    exact ih

/-- State lookup on the shape-D NFA. -/
lemma stepD_state (L : List Str) : ∀ j, (nfaD L).state j =
    if j < L.length then ⟨[], [⟨L.getD j [], j + 1⟩], none⟩
    else ([⟨[], [], some (L.length + 1)⟩,
           ⟨[], [⟨star, L.length + 1⟩, ⟨star, L.length + 2⟩], none⟩,
           ⟨[], [], some (L.length + 3)⟩,
           ⟨[0], [⟨star, L.length + 3⟩], none⟩] : List State).getD
      (j - L.length) State.new :=
  fun j => chainSuffix_state L
    [⟨[], [], some (L.length + 1)⟩,
     ⟨[], [⟨star, L.length + 1⟩, ⟨star, L.length + 2⟩], none⟩,
     ⟨[], [], some (L.length + 3)⟩,
     ⟨[0], [⟨star, L.length + 3⟩], none⟩] j

/-- One matching step on the shape-D NFA from a chain position; reaching the
end of the chain also activates its coalesced epsilon target. -/
lemma stepD_chain (L : List Str) (k : Nat) (s : Str) (hk : k < L.length) :
    (nfaD L).stepStates [k] s =
      if segMatch (L.getD k []) s then
        (if k + 1 = L.length then [L.length, L.length + 1] else [k + 1])
      else [] := by
  rw [stepStates_single, stepD_state L k, if_pos hk]
  dsimp only
  by_cases hm : segMatch (L.getD k []) s
  · rw [if_pos hm]
    rw [show (([⟨L.getD k [], k + 1⟩] : List Transition).filter fun t =>
        segMatch t.path_segment s) = [⟨L.getD k [], k + 1⟩] from by
      rw [List.filter_cons, if_pos (by exact hm), List.filter_nil]]
    simp only [List.map_cons, List.map_nil, List.filterMap_cons]
    by_cases h2 : k + 1 = L.length
    · have heps : ((nfaD L).state (k + 1)).epsilon_transition =
          some (L.length + 1) := by
        rw [stepD_state L (k + 1), if_neg (by omega), h2, Nat.sub_self]
        rfl
      rw [heps, if_pos h2, List.filterMap_nil]
      rw [h2]
      rfl
    · have heps : ((nfaD L).state (k + 1)).epsilon_transition = none := by
        rw [stepD_state L (k + 1), if_pos (by omega)]
      rw [heps, if_neg h2, List.filterMap_nil]
      rfl
  · simp only [Bool.not_eq_true] at hm
    rw [if_neg (by rw [hm]; exact Bool.false_ne_true)]
    rw [show (([⟨L.getD k [], k + 1⟩] : List Transition).filter fun t =>
        segMatch t.path_segment s) = [] from by
      rw [List.filter_cons, if_neg (by rw [hm]; exact Bool.false_ne_true),
        List.filter_nil]]
    rfl

/-- Step from the end-of-chain pair `{eps, loop-with-exit}` of shape D. -/
lemma stepD_end (L : List Str) (s : Str) :
    (nfaD L).stepStates [L.length, L.length + 1] s =
      [L.length + 1, L.length + 2, L.length + 3] := by
  have ht0 : (nfaD L).transitionsFrom L.length = [] := by
    rw [Nfa.transitionsFrom, stepD_state L L.length, if_neg (by omega),
      Nat.sub_self]
    rfl
  have ht1 : (nfaD L).transitionsFrom (L.length + 1) =
      [⟨star, L.length + 1⟩, ⟨star, L.length + 2⟩] := by
    rw [Nfa.transitionsFrom, stepD_state L (L.length + 1), if_neg (by omega),
      Nat.add_sub_cancel_left]
    rfl
  have he1 : (nfaD L).epsilonFrom (L.length + 1) = none := by
    rw [Nfa.epsilonFrom, stepD_state L (L.length + 1), if_neg (by omega),
      Nat.add_sub_cancel_left]
    rfl
  have he2 : (nfaD L).epsilonFrom (L.length + 2) = some (L.length + 3) := by
    rw [Nfa.epsilonFrom, stepD_state L (L.length + 2), if_neg (by omega),
      Nat.add_sub_cancel_left]
    rfl
  rw [Nfa.stepStates]
  simp only [List.flatMap_cons, List.flatMap_nil, ht0, ht1]
  rw [show (([⟨star, L.length + 1⟩, ⟨star, L.length + 2⟩] :
      List Transition).filter fun t => segMatch t.path_segment s) =
      [⟨star, L.length + 1⟩, ⟨star, L.length + 2⟩] from by
    rw [List.filter_cons, if_pos (by rw [segMatch_star]), List.filter_cons,
      if_pos (by rw [segMatch_star]), List.filter_nil]]
  simp only [List.filter_nil, List.map_nil, List.map_cons, List.nil_append,
    List.append_nil, List.filterMap_cons, he1, he2, List.filterMap_nil]
  rfl

/-- Step from the recursive tail of shape D: the two fixed states plus any
number of copies of the looping terminal step to the same set with one more
copy. -/
lemma stepD_tail (L : List Str) (r : Nat) (s : Str) :
    (nfaD L).stepStates
      ([L.length + 1, L.length + 2] ++ List.replicate r (L.length + 3)) s =
      [L.length + 1, L.length + 2] ++ List.replicate (r + 1) (L.length + 3) := by
  have ht1 : (nfaD L).transitionsFrom (L.length + 1) =
      [⟨star, L.length + 1⟩, ⟨star, L.length + 2⟩] := by
    rw [Nfa.transitionsFrom, stepD_state L (L.length + 1), if_neg (by omega),
      Nat.add_sub_cancel_left]
    rfl
  have ht2 : (nfaD L).transitionsFrom (L.length + 2) = [] := by
    rw [Nfa.transitionsFrom, stepD_state L (L.length + 2), if_neg (by omega),
      Nat.add_sub_cancel_left]
    rfl
  have ht3 : (nfaD L).transitionsFrom (L.length + 3) =
      [⟨star, L.length + 3⟩] := by
    rw [Nfa.transitionsFrom, stepD_state L (L.length + 3), if_neg (by omega),
      Nat.add_sub_cancel_left]
    rfl
  have he1 : (nfaD L).epsilonFrom (L.length + 1) = none := by
    rw [Nfa.epsilonFrom, stepD_state L (L.length + 1), if_neg (by omega),
      Nat.add_sub_cancel_left]
    rfl
  have he2 : (nfaD L).epsilonFrom (L.length + 2) = some (L.length + 3) := by
    rw [Nfa.epsilonFrom, stepD_state L (L.length + 2), if_neg (by omega),
      Nat.add_sub_cancel_left]
    rfl
  have he3 : (nfaD L).epsilonFrom (L.length + 3) = none := by
    rw [Nfa.epsilonFrom, stepD_state L (L.length + 3), if_neg (by omega),
      Nat.add_sub_cancel_left]
    rfl
  have hmap3 : (fun sid => (((nfaD L).transitionsFrom sid).filter fun t =>
      segMatch t.path_segment s).map Transition.target) (L.length + 3) =
      [L.length + 3] := by
    dsimp only
    rw [ht3]
    rw [show (([⟨star, L.length + 3⟩] : List Transition).filter fun t =>
        segMatch t.path_segment s) = [⟨star, L.length + 3⟩] from by
      rw [List.filter_cons, if_pos (by rw [segMatch_star]), List.filter_nil]]
    rfl
  rw [Nfa.stepStates]
  have hflat : (([L.length + 1, L.length + 2] ++
      List.replicate r (L.length + 3)).flatMap fun sid =>
        (((nfaD L).transitionsFrom sid).filter fun t =>
          segMatch t.path_segment s).map Transition.target) =
      [L.length + 1, L.length + 2] ++ List.replicate r (L.length + 3) := by
    rw [List.flatMap_append, flatMap_fixed_replicate r (L.length + 3) _ hmap3]
    congr 1
    simp only [List.flatMap_cons, List.flatMap_nil, ht1, ht2]
    rw [show (([⟨star, L.length + 1⟩, ⟨star, L.length + 2⟩] :
        List Transition).filter fun t => segMatch t.path_segment s) =
        [⟨star, L.length + 1⟩, ⟨star, L.length + 2⟩] from by
      rw [List.filter_cons, if_pos (by rw [segMatch_star]), List.filter_cons,
        if_pos (by rw [segMatch_star]), List.filter_nil]]
    rfl
  rw [hflat]
  rw [List.filterMap_append,
    filterMap_fixed_replicate r (L.length + 3) _ he3]
  simp only [List.filterMap_cons, he1, he2, List.filterMap_nil]
  rw [List.append_nil, List.append_assoc,
    show List.replicate r (L.length + 3) ++ [L.length + 3] =
      List.replicate (r + 1) (L.length + 3) from
      (List.replicate_succ' r (L.length + 3)).symm]

lemma shapeD_initial (L : List Str) (hL : L ≠ []) :
    (nfaD L).initialStates = [0] := by
  rw [Nfa.initialStates]
  have h0 : ((nfaD L).state 0).epsilon_transition = none := by
    rw [stepD_state L 0, if_pos (List.length_pos.mpr hL)]
  rw [h0]

/-- The active set of the shape-D NFA after consuming `path` from the start
state. -/
lemma shapeD_nextStates (L path : List Str) (hL : L ≠ []) :
    (nfaD L).nextStates path [0] =
      if pmAll L 0 (path.take L.length) then
        (if path.length < L.length then [path.length]
         else if path.length = L.length then [L.length, L.length + 1]
         else [L.length + 1, L.length + 2] ++
           List.replicate (path.length - L.length) (L.length + 3))
      else [] := by
  induction path using List.reverseRecOn with
  | nil =>
    simp [Nfa.nextStates, pmAll, List.length_pos.mpr hL]
  | append_singleton xs s ih =>
    rw [Nfa.nextStates, List.foldl_append, List.foldl_cons, List.foldl_nil]
    rw [show List.foldl (nfaD L).stepStates [0] xs = (nfaD L).nextStates xs [0]
      from rfl]
    rw [ih]
    have hlen : (xs ++ [s]).length = xs.length + 1 := by simp
    rw [hlen]
    by_cases hpm : pmAll L 0 (xs.take L.length) = true
    · rw [if_pos hpm]
      by_cases h1 : xs.length < L.length
      · rw [if_pos h1, stepD_chain L xs.length s h1]
        have htake_old : xs.take L.length = xs :=
          List.take_of_length_le (by omega)
        rw [htake_old] at hpm
        have htake_new : (xs ++ [s]).take L.length = xs ++ [s] :=
          List.take_of_length_le (by simp; omega)
        rw [htake_new, pmAll_snoc, hpm, Bool.true_and, Nat.zero_add]
        by_cases hsm : segMatch (L.getD xs.length []) s = true
        · rw [if_pos hsm, if_pos hsm]
          by_cases h2 : xs.length + 1 = L.length
          · rw [if_pos h2, if_neg (by omega), if_pos h2]
          · rw [if_neg h2, if_pos (by omega)]
        · simp only [Bool.not_eq_true] at hsm
          rw [if_neg (by rw [hsm]; exact Bool.false_ne_true),
            if_neg (by rw [hsm]; exact Bool.false_ne_true)]
      · have htake_new : (xs ++ [s]).take L.length = xs.take L.length :=
          List.take_append_of_le_length (by omega)
        rw [htake_new, if_pos hpm]
        by_cases h2 : xs.length = L.length
        · rw [if_neg h1, if_pos h2, stepD_end, if_neg (by omega),
            if_neg (by omega),
            show xs.length + 1 - L.length = 1 from by omega]
          rfl
        · rw [if_neg h1, if_neg h2, stepD_tail L (xs.length - L.length) s,
            if_neg (by omega), if_neg (by omega),
            show xs.length + 1 - L.length = xs.length - L.length + 1 from by
              omega]
    · rw [if_neg hpm, stepStates_nil]
      by_cases h1 : L.length ≤ xs.length
      · have htake_new : (xs ++ [s]).take L.length = xs.take L.length :=
          List.take_append_of_le_length h1
        rw [htake_new, if_neg hpm]
      · have htake_old : xs.take L.length = xs :=
          List.take_of_length_le (by omega)
        have htake_new : (xs ++ [s]).take L.length = xs ++ [s] :=
          List.take_of_length_le (by simp; omega)
        rw [htake_old] at hpm
        rw [htake_new, if_neg (by
          rw [pmAll_snoc]
          intro hc
          exact hpm (Bool.and_eq_true_iff.mp hc).1)]

/-- Matching on the shape-D NFA: at least `|L| + 1` segments, the first `|L|`
of which match the chain. -/
lemma shapeD_matching (L path : List Str) (hL : L ≠ []) :
    0 ∈ (nfaD L).matchingPatterns path ↔
      (L.length + 1 ≤ path.length ∧
       pmAll L 0 (path.take L.length) = true) := by
  rw [mem_matchingPatterns, Nfa.finalStates, shapeD_initial L hL,
    shapeD_nextStates L path hL]
  constructor
  · rintro ⟨sid, hsid, hterm⟩
    by_cases hpm : pmAll L 0 (path.take L.length) = true
    · rw [if_pos hpm] at hsid
      by_cases h1 : path.length < L.length
      · rw [if_pos h1] at hsid
        have hsid' : sid = path.length := by simpa using hsid
        rw [hsid', stepD_state L path.length, if_pos h1] at hterm
        cases hterm
      · by_cases h2 : path.length = L.length
        · rw [if_neg h1, if_pos h2] at hsid
          rcases (by simpa using hsid : sid = L.length ∨ sid = L.length + 1)
            with h | h
          · rw [h, stepD_state L L.length, if_neg (by omega),
              Nat.sub_self] at hterm
            cases hterm
          · rw [h, stepD_state L (L.length + 1), if_neg (by omega),
              Nat.add_sub_cancel_left] at hterm
            cases hterm
        · exact ⟨by omega, hpm⟩
    · rw [if_neg hpm] at hsid
      cases hsid
  · rintro ⟨hlen, hpm⟩
    refine ⟨L.length + 3, ?_, ?_⟩
    · rw [if_pos hpm, if_neg (by omega), if_neg (by omega)]
      apply List.mem_append_right
      rw [List.mem_replicate]
      exact ⟨by omega, rfl⟩
    · rw [stepD_state L (L.length + 3), if_neg (by omega),
        Nat.add_sub_cancel_left]
      simp [List.getD]

/-! ## Parser (`parser.rs`)

The parser state is embedded as the list of remaining characters plus the
current byte offset; `Char.utf8Size` advances offsets exactly as
`char::len_utf8` does, so spans are byte-exact. -/

structure Span where
  lo : Nat
  hi : Nat
deriving DecidableEq

structure Spanned (α : Type) where
  val : α
  span : Span
deriving DecidableEq

/-- `ParseError` from `parser.rs`. -/
structure PError where
  message : Str
  span : Span
deriving DecidableEq

/-- The spanned `Rule` from `parser.rs` (not the `ruleset.rs` one). -/
structure PRule where
  pattern : Spanned Str
  owners : List (Spanned Owner)
  leading_comments : List (Spanned Str)
  trailing_comment : Option (Spanned Str)
deriving DecidableEq

/-- `ParseResult` from `parser.rs`. -/
structure PResult where
  rules : List PRule
  errors : List PError
deriving DecidableEq

/-- Total UTF-8 byte length of a character list (`str::len`). -/
def utf8Len (s : Str) : Nat := (s.map Char.utf8Size).sum

/-! Character classes of the three owner regexes in `ruleset.rs`.  `@` is in
none of them, so a string matching `EMAIL_REGEX` has exactly one `@` (split
at the first); the TLD class has no `.`, so the separating dot is the last
one; the team regexes exclude `/` on both sides, so the separating slash is
unique. -/

def emailLocalChar (c : Char) : Bool :=
  decide ('A' ≤ c ∧ c ≤ 'Z') || decide ('0' ≤ c ∧ c ≤ '9') ||
    decide ('a' ≤ c ∧ c ≤ 'z') || c == '.' || c == '_' ||
    c == Char.ofNat 39 || c == '%' || c == '+' || c == '-'

def emailDomainChar (c : Char) : Bool :=
  decide ('A' ≤ c ∧ c ≤ 'Z') || decide ('a' ≤ c ∧ c ≤ 'z') ||
    decide ('0' ≤ c ∧ c ≤ '9') || c == '.' || c == '-'

def alphaChar (c : Char) : Bool :=
  decide ('A' ≤ c ∧ c ≤ 'Z') || decide ('a' ≤ c ∧ c ≤ 'z')

def nameChar (c : Char) : Bool :=
  decide ('a' ≤ c ∧ c ≤ 'z') || decide ('A' ≤ c ∧ c ≤ 'Z') ||
    decide ('0' ≤ c ∧ c ≤ '9') || c == '-' || c == '_'

def teamOrgChar (c : Char) : Bool :=
  decide ('a' ≤ c ∧ c ≤ 'z') || decide ('A' ≤ c ∧ c ≤ 'Z') ||
    decide ('0' ≤ c ∧ c ≤ '9') || c == '-'

/-- Split at the first occurrence of `c`, if any. -/
def splitFirst (c : Char) : Str → Option (Str × Str)
  | [] => none
  | x :: xs =>
    if x = c then some ([], xs)
    else (splitFirst c xs).map fun p => (x :: p.1, p.2)

/-- Split at the last occurrence of `c`, if any. -/
def lastSplit (c : Char) (s : Str) : Option (Str × Str) :=
  (splitFirst c s.reverse).map fun p => (p.2.reverse, p.1.reverse)

/-- `EMAIL_REGEX.is_match`. -/
def isEmail (s : Str) : Bool :=
  match splitFirst '@' s with
  | none => false
  | some (lpart, rest) =>
    !lpart.isEmpty && lpart.all emailLocalChar &&
      (match lastSplit '.' rest with
       | none => false
       | some (d, t) =>
         !d.isEmpty && d.all emailDomainChar && t.all alphaChar &&
           decide (2 ≤ t.length) && decide (t.length ≤ 6))

/-- `USERNAME_REGEX.is_match`. -/
def isUsername (s : Str) : Bool :=
  match s with
  | [] => false
  | c :: rest => c == '@' && !rest.isEmpty && rest.all nameChar

/-- `TEAM_REGEX.is_match`. -/
def isTeam (s : Str) : Bool :=
  match s with
  | [] => false
  | c :: rest =>
    c == '@' &&
      (match splitFirst '/' rest with
       | none => false
       | some (org, usr) =>
         !org.isEmpty && org.all teamOrgChar && !usr.isEmpty &&
           usr.all nameChar)

/-- `Owner::try_from` from `ruleset.rs`: email, then user, then team. -/
def ownerTryFrom (s : Str) : Option Owner :=
  if isEmail s then some ⟨s, OwnerKind.Email⟩
  else if isUsername s then some ⟨s, OwnerKind.User⟩
  else if isTeam s then some ⟨s, OwnerKind.Team⟩
  else none

/-- `Parser::skip_whitespace`. -/
def skipWhitespace : Str → Nat → Str × Nat
  | [], pos => ([], pos)
  | c :: cs, pos =>
    if c = ' ' ∨ c = '\t' then skipWhitespace cs (pos + c.utf8Size)
    else (c :: cs, pos)

/-- The scanning loop of `Parser::parse_comment`: collected characters,
remaining input, new position. -/
def commentScan : Str → Nat → Str × Str × Nat
  | [], pos => ([], [], pos)
  | c :: cs, pos =>
    if c = '\r' ∨ c = '\n' then ([], c :: cs, pos)
    else
      let r := commentScan cs (pos + c.utf8Size)
      (c :: r.1, r.2.1, r.2.2)

/-- `Parser::parse_comment`. -/
def parseComment (src : Str) (pos : Nat) : Spanned Str × Str × Nat :=
  let r := commentScan src pos
  (⟨r.1, ⟨pos, r.2.2⟩⟩, r.2.1, r.2.2)

/-- The scanning loop of `Parser::parse_pattern`, carrying the `escaped`
flag: (pattern characters, null-byte errors), remaining input, position. -/
def patternScan : Str → Nat → Bool → (Str × List PError) × Str × Nat
  | [], pos, _ => (([], []), [], pos)
  | c :: cs, pos, escaped =>
    if c = '\\' ∧ escaped = false then patternScan cs (pos + c.utf8Size) true
    else if (c = ' ' ∨ c = '\t' ∨ c = '#' ∨ c = '\r' ∨ c = '\n') ∧
        escaped = false then
      (([], []), c :: cs, pos)
    else
      let errs : List PError :=
        if c = Char.ofNat 0 then
          [⟨("patterns cannot contain null bytes").toList, ⟨pos, pos + 1⟩⟩]
        else []
      let r := patternScan cs (pos + c.utf8Size) false
      ((c :: r.1.1, errs ++ r.1.2), r.2.1, r.2.2)

/-- `Parser::parse_pattern`. -/
def parsePattern (src : Str) (pos : Nat) :
    (Spanned Str × List PError) × Str × Nat :=
  let r := patternScan src pos false
  ((⟨r.1.1, ⟨pos, r.2.2⟩⟩, r.1.2), r.2.1, r.2.2)

/-- The scanning loop of `Parser::parse_owner`: owner characters, remaining
input, new position. -/
def ownerScan : Str → Nat → Str × Str × Nat
  | [], pos => ([], [], pos)
  | c :: cs, pos =>
    if c = ' ' ∨ c = '\t' ∨ c = '#' ∨ c = '\r' ∨ c = '\n' then
      ([], c :: cs, pos)
    else
      let r := ownerScan cs (pos + c.utf8Size)
      (c :: r.1, r.2.1, r.2.2)

/-- `Parser::parse_owner`: `none` both on an empty token and on a token that
fails classification; the latter records an `invalid owner` error spanning
the token. -/
def parseOwner (src : Str) (pos : Nat) :
    (Option (Spanned Owner) × List PError) × Str × Nat :=
  let r := ownerScan src pos
  if r.1 = [] then ((none, []), r.2.1, r.2.2)
  else
    match ownerTryFrom r.1 with
    | some o => ((some ⟨o, ⟨pos, r.2.2⟩⟩, []), r.2.1, r.2.2)
    | none =>
      ((none, [⟨("invalid owner: ").toList ++ r.1, ⟨pos, r.2.2⟩⟩]),
       r.2.1, r.2.2)

lemma skipWhitespace_le (src : Str) (pos : Nat) :
    (skipWhitespace src pos).1.length ≤ src.length := by
  induction src generalizing pos with
  | nil => simp [skipWhitespace]
  | cons c cs ih =>
    rw [skipWhitespace]
    by_cases h : c = ' ' ∨ c = '\t'
    · rw [if_pos h]
      exact le_trans (ih (pos + c.utf8Size)) (by simp)
    · rw [if_neg h]

lemma commentScan_le (src : Str) (pos : Nat) :
    (commentScan src pos).2.1.length ≤ src.length := by
  induction src generalizing pos with
  | nil => simp [commentScan]
  | cons c cs ih =>
    rw [commentScan]
    by_cases h : c = '\r' ∨ c = '\n'
    · rw [if_pos h]
    · rw [if_neg h]
      exact le_trans (ih (pos + c.utf8Size)) (by simp)

lemma commentScan_cons_lt (c : Char) (cs : Str) (pos : Nat)
    (h : ¬(c = '\r' ∨ c = '\n')) :
    (commentScan (c :: cs) pos).2.1.length ≤ cs.length := by
  rw [commentScan, if_neg h]
  exact commentScan_le cs (pos + c.utf8Size)

lemma ownerScan_le (src : Str) (pos : Nat) :
    (ownerScan src pos).2.1.length ≤ src.length := by
  induction src generalizing pos with
  | nil => simp [ownerScan]
  | cons c cs ih =>
    rw [ownerScan]
    by_cases h : c = ' ' ∨ c = '\t' ∨ c = '#' ∨ c = '\r' ∨ c = '\n'
    · rw [if_pos h]
    · rw [if_neg h]
      exact le_trans (ih (pos + c.utf8Size)) (by simp)

lemma ownerScan_lt (src : Str) (pos : Nat)
    (h : (ownerScan src pos).1 ≠ []) :
    (ownerScan src pos).2.1.length < src.length := by
  cases src with
  | nil => exact absurd rfl h
  | cons c cs =>
    rw [ownerScan]
    by_cases hc : c = ' ' ∨ c = '\t' ∨ c = '#' ∨ c = '\r' ∨ c = '\n'
    · rw [ownerScan, if_pos hc] at h
      exact absurd rfl h
    · rw [if_neg hc]
      exact Nat.lt_succ_of_le (ownerScan_le cs (pos + c.utf8Size))

lemma patternScan_le (src : Str) (pos : Nat) (esc : Bool) :
    (patternScan src pos esc).2.1.length ≤ src.length := by
  induction src generalizing pos esc with
  | nil => simp [patternScan]
  | cons c cs ih =>
    rw [patternScan]
    by_cases h1 : c = '\\' ∧ esc = false
    · rw [if_pos h1]
      exact le_trans (ih (pos + c.utf8Size) true) (by simp)
    · rw [if_neg h1]
      by_cases h2 : (c = ' ' ∨ c = '\t' ∨ c = '#' ∨ c = '\r' ∨ c = '\n') ∧
          esc = false
      · rw [if_pos h2]
      · rw [if_neg h2]
        exact le_trans (ih (pos + c.utf8Size) false) (by simp)

lemma patternScan_lt (src : Str) (pos : Nat) (esc : Bool)
    (h : (patternScan src pos esc).1.1 ≠ []) :
    (patternScan src pos esc).2.1.length < src.length := by
  induction src generalizing pos esc with
  | nil => exact absurd rfl h
  | cons c cs ih =>
    rw [patternScan]
    by_cases h1 : c = '\\' ∧ esc = false
    · rw [if_pos h1]
      rw [patternScan, if_pos h1] at h
      exact Nat.lt_succ_of_lt (ih (pos + c.utf8Size) true h)
    · rw [if_neg h1]
      by_cases h2 : (c = ' ' ∨ c = '\t' ∨ c = '#' ∨ c = '\r' ∨ c = '\n') ∧
          esc = false
      · rw [patternScan, if_neg h1, if_pos h2] at h
        exact absurd rfl h
      · rw [if_neg h2]
        exact Nat.lt_succ_of_le (patternScan_le cs (pos + c.utf8Size) false)

lemma parseOwner_some_lt (src : Str) (pos : Nat) (o : Spanned Owner)
    (h : (parseOwner src pos).1.1 = some o) :
    (parseOwner src pos).2.1.length < src.length := by
  rw [parseOwner] at h ⊢
  by_cases h1 : (ownerScan src pos).1 = []
  · rw [if_pos h1] at h
    cases h
  · rw [if_neg h1] at h ⊢
    cases htf : ownerTryFrom (ownerScan src pos).1 with
    | none =>
      rw [htf] at h
      exact Option.noConfusion h
    | some o2 =>
      exact ownerScan_lt src pos h1

/-- The owners loop of `Parser::parse_rule`: skip whitespace, parse an
owner, stop at the first `none`.  The fuel argument only bounds the
recursion depth; one unit per parsed owner always suffices because each
parsed owner consumes at least one character (`ownersLoopF_irrel`). -/
def ownersLoopF : Nat → Str → Nat →
    (List (Spanned Owner) × List PError) × Str × Nat
  | 0, src, pos => (([], []), src, pos)
  | fuel + 1, src, pos =>
    let w := skipWhitespace src pos
    let r := parseOwner w.1 w.2
    match r.1.1 with
    | none => (([], r.1.2), r.2.1, r.2.2)
    | some o =>
      let rest := ownersLoopF fuel r.2.1 r.2.2
      ((o :: rest.1.1, r.1.2 ++ rest.1.2), rest.2.1, rest.2.2)

def ownersLoop (src : Str) (pos : Nat) :
    (List (Spanned Owner) × List PError) × Str × Nat :=
  ownersLoopF (src.length + 1) src pos

/-- Any fuel beyond the input length yields the same owners-loop result, so
the canonical fuel in `ownersLoop` is inexhaustible. -/
lemma ownersLoopF_irrel : ∀ (f1 f2 : Nat) (src : Str) (pos : Nat),
    src.length < f1 → src.length < f2 →
    ownersLoopF f1 src pos = ownersLoopF f2 src pos := by
  intro f1
  induction f1 with
  | zero =>
    intro f2 src pos h1 h2
    exact absurd h1 (Nat.not_lt_zero _)
  | succ g ih =>
    intro f2 src pos h1 h2
    cases f2 with
    | zero => exact absurd h2 (Nat.not_lt_zero _)
    | succ h =>
      simp only [ownersLoopF]
      cases hro : (parseOwner (skipWhitespace src pos).1
          (skipWhitespace src pos).2).1.1 with
      | none => rfl
      | some o =>
        have hlt : (parseOwner (skipWhitespace src pos).1
            (skipWhitespace src pos).2).2.1.length < src.length :=
          lt_of_lt_of_le (parseOwner_some_lt _ _ o hro)
            (skipWhitespace_le src pos)
        rw [ih h (parseOwner (skipWhitespace src pos).1
            (skipWhitespace src pos).2).2.1
          (parseOwner (skipWhitespace src pos).1
            (skipWhitespace src pos).2).2.2 (by omega) (by omega)]

lemma parseOwner_le (src : Str) (pos : Nat) :
    (parseOwner src pos).2.1.length ≤ src.length := by
  rw [parseOwner]
  by_cases h1 : (ownerScan src pos).1 = []
  · rw [if_pos h1]
    exact ownerScan_le src pos
  · rw [if_neg h1]
    cases ownerTryFrom (ownerScan src pos).1 <;> exact ownerScan_le src pos

lemma ownersLoopF_le : ∀ (fuel : Nat) (src : Str) (pos : Nat),
    (ownersLoopF fuel src pos).2.1.length ≤ src.length := by
  intro fuel
  induction fuel with
  | zero =>
    intro src pos
    exact Nat.le_refl _
  | succ g ih =>
    intro src pos
    rw [ownersLoopF]
    cases hro : (parseOwner (skipWhitespace src pos).1
        (skipWhitespace src pos).2).1.1 with
    | none =>
      exact le_trans (parseOwner_le _ _) (skipWhitespace_le src pos)
    | some o =>
      have hlt : (parseOwner (skipWhitespace src pos).1
          (skipWhitespace src pos).2).2.1.length < src.length :=
        lt_of_lt_of_le (parseOwner_some_lt _ _ o hro)
          (skipWhitespace_le src pos)
      exact le_trans (ih _ _) (le_of_lt hlt)

lemma ownersLoop_le (src : Str) (pos : Nat) :
    (ownersLoop src pos).2.1.length ≤ src.length :=
  ownersLoopF_le (src.length + 1) src pos

/-- The terminator check at the end of `Parser::parse_rule`, applied to the
parsed pattern, the pattern-scan errors, and the owners-loop result. -/
def ruleFinish (pat : Spanned Str) (perrs : List PError)
    (ol : (List (Spanned Owner) × List PError) × Str × Nat) :
    (Except PError PRule × List PError) × Str × Nat :=
  match ol.2.1 with
  | [] => ((Except.ok ⟨pat, ol.1.1, [], none⟩, perrs ++ ol.1.2), [], ol.2.2)
  | c :: cs =>
    if c = '\r' ∨ c = '\n' then
      ((Except.ok ⟨pat, ol.1.1, [], none⟩, perrs ++ ol.1.2), c :: cs, ol.2.2)
    else if c = '#' then
      let cm := parseComment (c :: cs) ol.2.2
      ((Except.ok ⟨pat, ol.1.1, [], some cm.1⟩, perrs ++ ol.1.2),
       cm.2.1, cm.2.2)
    else
      ((Except.error ⟨("expected newline").toList, ⟨ol.2.2, ol.2.2⟩⟩,
        perrs ++ ol.1.2), c :: cs, ol.2.2)

/-- `Parser::parse_rule`. -/
def parseRule (src : Str) (pos : Nat) :
    (Except PError PRule × List PError) × Str × Nat :=
  if (parsePattern src pos).1.1.val = [] then
    ((Except.error ⟨("expected pattern").toList,
        ⟨(parsePattern src pos).2.2, (parsePattern src pos).2.2⟩⟩,
      (parsePattern src pos).1.2),
     (parsePattern src pos).2.1, (parsePattern src pos).2.2)
  else
    ruleFinish (parsePattern src pos).1.1 (parsePattern src pos).1.2
      (ownersLoop (parsePattern src pos).2.1 (parsePattern src pos).2.2)

lemma ruleFinish_rest_le (pat : Spanned Str) (perrs : List PError)
    (ol : (List (Spanned Owner) × List PError) × Str × Nat) :
    (ruleFinish pat perrs ol).2.1.length ≤ ol.2.1.length := by
  rw [ruleFinish]
  cases hol : ol.2.1 with
  | nil => exact Nat.le_refl 0
  | cons c cs =>
    dsimp only
    by_cases h2 : c = '\r' ∨ c = '\n'
    · rw [if_pos h2]
    · rw [if_neg h2]
      by_cases h3 : c = '#'
      · rw [if_pos h3]
        exact commentScan_le (c :: cs) ol.2.2
      · rw [if_neg h3]

lemma parseRule_ok_lt (src : Str) (pos : Nat) (rule : PRule)
    (errs : List PError) (rest : Str) (pos2 : Nat)
    (h : parseRule src pos = ((Except.ok rule, errs), rest, pos2)) :
    rest.length < src.length := by
  rw [parseRule] at h
  by_cases h1 : (parsePattern src pos).1.1.val = []
  · rw [if_pos h1] at h
    exact Except.noConfusion (congrArg (fun q => q.1.1) h)
  · rw [if_neg h1] at h
    have hplt : (parsePattern src pos).2.1.length < src.length :=
      patternScan_lt src pos false h1
    have hrest : rest = (ruleFinish (parsePattern src pos).1.1
        (parsePattern src pos).1.2
        (ownersLoop (parsePattern src pos).2.1
          (parsePattern src pos).2.2)).2.1 :=
      (congrArg (fun q => q.2.1) h).symm
    rw [hrest]
    exact lt_of_le_of_lt
      (le_trans (ruleFinish_rest_le _ _ _) (ownersLoop_le _ _)) hplt

/-- The main loop of `Parser::parse`, entered with whitespace already
skipped; carries the pending leading comments.  As with `ownersLoopF`, the
fuel only bounds the recursion depth and is inexhaustible at the canonical
value (`parseLoopF_irrel`). -/
def parseLoopF : Nat → Str → Nat → List (Spanned Str) →
    List PRule × List PError
  | 0, _, _, _ => ([], [])
  | fuel + 1, src, pos, leading =>
    match src with
    | [] => ([], [])
    | c :: cs =>
      if c = '\r' ∨ c = '\n' then
        let w := skipWhitespace cs (pos + c.utf8Size)
        parseLoopF fuel w.1 w.2 leading
      else if c = '#' then
        let cm := parseComment (c :: cs) pos
        let w := skipWhitespace cm.2.1 cm.2.2
        parseLoopF fuel w.1 w.2 (leading ++ [cm.1])
      else
        match parseRule (c :: cs) pos with
        | ((Except.ok rule, errs), rest, pos2) =>
          let w := skipWhitespace rest pos2
          let r := parseLoopF fuel w.1 w.2 []
          (⟨rule.pattern, rule.owners, leading, rule.trailing_comment⟩ ::
            r.1, errs ++ r.2)
        | ((Except.error e, errs), _, _) => ([], errs ++ [e])

def parseLoop (src : Str) (pos : Nat) (leading : List (Spanned Str)) :
    List PRule × List PError :=
  parseLoopF (src.length + 1) src pos leading

/-- Any fuel beyond the input length yields the same main-loop result: every
iteration that recurses consumes at least one character. -/
lemma parseLoopF_irrel : ∀ (f1 f2 : Nat) (src : Str) (pos : Nat)
    (leading : List (Spanned Str)), src.length < f1 → src.length < f2 →
    parseLoopF f1 src pos leading = parseLoopF f2 src pos leading := by
  intro f1
  induction f1 with
  | zero =>
    intro f2 src pos leading h1 h2
    exact absurd h1 (Nat.not_lt_zero _)
  | succ g ih =>
    intro f2 src pos leading h1 h2
    cases f2 with
    | zero => exact absurd h2 (Nat.not_lt_zero _)
    | succ h =>
      simp only [parseLoopF]
      cases src with
      | nil => rfl
      | cons c cs =>
      simp only [List.length_cons] at h1 h2
      dsimp only
      by_cases hnl : c = '\r' ∨ c = '\n'
      · rw [if_pos hnl, if_pos hnl]
        have hsw := skipWhitespace_le cs (pos + c.utf8Size)
        exact ih h (skipWhitespace cs (pos + c.utf8Size)).1
          (skipWhitespace cs (pos + c.utf8Size)).2 leading
          (by omega) (by omega)
      · rw [if_neg hnl, if_neg hnl]
        by_cases hc : c = '#'
        · rw [if_pos hc, if_pos hc]
          have hcm : (skipWhitespace
              (parseComment (c :: cs) pos).2.1
              (parseComment (c :: cs) pos).2.2).1.length ≤ cs.length :=
            le_trans (skipWhitespace_le _ _)
              (commentScan_cons_lt _ _ _ (by rw [hc]; decide))
          exact ih h (skipWhitespace (parseComment (c :: cs) pos).2.1
              (parseComment (c :: cs) pos).2.2).1
            (skipWhitespace (parseComment (c :: cs) pos).2.1
              (parseComment (c :: cs) pos).2.2).2
            (leading ++ [(parseComment (c :: cs) pos).1])
            (by omega) (by omega)
        · rw [if_neg hc, if_neg hc]
          rcases hpr : parseRule (c :: cs) pos with ⟨⟨res, errs⟩, rest, pos2⟩
          cases res with
          | error e => dsimp only
          | ok rule =>
            dsimp only
            have hlt : rest.length < cs.length + 1 :=
              parseRule_ok_lt (c :: cs) pos rule errs rest pos2 hpr
            have hsw : (skipWhitespace rest pos2).1.length ≤ rest.length :=
              skipWhitespace_le _ _
            rw [ih h (skipWhitespace rest pos2).1
              (skipWhitespace rest pos2).2 [] (by omega) (by omega)]

/-- `Parser::parse` / the top-level `parse` function. -/
def parse (source : Str) : PResult :=
  let w := skipWhitespace source 0
  let r := parseLoop w.1 w.2 []
  ⟨r.1, r.2⟩

/-! ## The cached matcher (`matcher.rs`)

`Matcher::next_states` consults a prefix cache keyed by
`subpath_segments.join("/")`.  The `HashMap` behind an `RwLock` is embedded
as an association list with lookup-first semantics (an insert shadows older
entries, exactly like `HashMap::insert`). -/

/-- `HashMap::get` on the association-list model. -/
def lookupC : List (Str × List Nat) → Str → Option (List Nat)
  | [], _ => none
  | (k, v) :: rest, key => if k = key then some v else lookupC rest key

/-- `Vec::join("/")` at the character level. -/
def joinSlash : List Str → Str
  | [] => []
  | [s] => s
  | s :: rest => s ++ '/' :: joinSlash rest

/-- `Matcher::next_states` with the cache threaded through.  The fuel equals
the number of segments and decreases by exactly one per recursive call
(`dropLast` removes one element), so the `0, _ :: _` arm is unreachable. -/
def nextStatesCF (nfa : Nfa) :
    Nat → List Str → List Nat → List (Str × List Nat) →
    List Nat × List (Str × List Nat)
  | _, [], start, cache => (start, cache)
  | 0, _ :: _, start, cache => (start, cache)
  | fuel + 1, s :: ss, start, cache =>
    match lookupC cache (joinSlash (s :: ss).dropLast) with
    | some states =>
      (nfa.stepStates states ((s :: ss).getLastD []), cache)
    | none =>
      let r := nextStatesCF nfa fuel (s :: ss).dropLast start cache
      (nfa.stepStates r.1 ((s :: ss).getLastD []),
       (joinSlash (s :: ss).dropLast, r.1) :: r.2)

def nextStatesC (nfa : Nfa) (segs : List Str) (start : List Nat)
    (cache : List (Str × List Nat)) : List Nat × List (Str × List Nat) :=
  nextStatesCF nfa segs.length segs start cache

/-- `Matcher::matching_patterns`, returning the updated cache as well. -/
def matchingPatternsC (nfa : Nfa) (segs : List Str)
    (cache : List (Str × List Nat)) : List Nat × List (Str × List Nat) :=
  let r := nextStatesC nfa segs nfa.initialStates cache
  (r.1.flatMap fun sid =>
    if (nfa.state sid).isTerminal then (nfa.state sid).terminal_for_patterns
    else [], r.2)

/-- A path component as produced by `Path::iter` for a relative path:
non-empty and free of `/`. -/
def goodSeg (s : Str) : Bool := decide (s ≠ [] ∧ ¬ '/' ∈ s)

def goodPath (segs : List Str) : Bool := segs.all goodSeg

/-- Every cache entry is the set of states some joined good prefix leads
to — exactly what `next_states` inserts. -/
def CacheOK (nfa : Nfa) (start : List Nat)
    (cache : List (Str × List Nat)) : Prop :=
  ∀ k v, (k, v) ∈ cache →
    ∃ segs, goodPath segs = true ∧ joinSlash segs = k ∧
      v = nfa.nextStates segs start

lemma slashfree_append_inj (x : Str) : ∀ (y rest1 rest2 : Str),
    ¬ '/' ∈ x → ¬ '/' ∈ y → x ++ '/' :: rest1 = y ++ '/' :: rest2 →
    x = y ∧ rest1 = rest2 := by
  induction x with
  | nil =>
    intro y rest1 rest2 hx hy h
    cases y with
    | nil =>
      refine ⟨rfl, ?_⟩
      simpa using h
    | cons b bs =>
      have hb : b = '/' := by
        have hh := congrArg (fun l => l.head?) h
        simpa using hh.symm
      exact absurd (by rw [hb]; exact List.mem_cons_self _ _) hy
  | cons a as ih =>
    intro y rest1 rest2 hx hy h
    cases y with
    | nil =>
      have ha : a = '/' := by
        have hh := congrArg (fun l => l.head?) h
        simpa using hh
      exact absurd (by rw [ha]; exact List.mem_cons_self _ _) hx
    | cons b bs =>
      rw [List.cons_append, List.cons_append] at h
      injection h with h1 h2
      obtain ⟨hxy, hr⟩ := ih bs rest1 rest2
        (fun hm => hx (List.mem_cons_of_mem _ hm))
        (fun hm => hy (List.mem_cons_of_mem _ hm)) h2
      exact ⟨by rw [h1, hxy], hr⟩

lemma joinSlash_ne_nil_of_good (y : Str) (ys : List Str)
    (hg : goodSeg y = true) : joinSlash (y :: ys) ≠ [] := by
  cases ys with
  | nil =>
    have hy := of_decide_eq_true hg
    simpa [joinSlash] using hy.1
  | cons z zs =>
    simp [joinSlash]

/-- `join("/")` is injective on lists of non-empty `/`-free components —
which is what `Path::iter` produces for relative paths. -/
lemma joinSlash_inj : ∀ (xs ys : List Str), goodPath xs = true →
    goodPath ys = true → joinSlash xs = joinSlash ys → xs = ys := by
  intro xs
  induction xs with
  | nil =>
    intro ys hx hy h
    cases ys with
    | nil => rfl
    | cons y ys' =>
      have hgy : goodSeg y = true := by
        simp only [goodPath, List.all_cons, Bool.and_eq_true] at hy
        exact hy.1
      exact absurd h.symm (joinSlash_ne_nil_of_good y ys' hgy)
  | cons x xs' ih =>
    intro ys hx hy h
    have hgx : goodSeg x = true ∧ xs'.all goodSeg = true := by
      simpa only [goodPath, List.all_cons, Bool.and_eq_true] using hx
    cases ys with
    | nil =>
      exact absurd h (joinSlash_ne_nil_of_good x xs' hgx.1)
    | cons y ys' =>
      have hgy : goodSeg y = true ∧ ys'.all goodSeg = true := by
        simpa only [goodPath, List.all_cons, Bool.and_eq_true] using hy
      cases xs' with
      | nil =>
        cases ys' with
        | nil =>
          simp only [joinSlash] at h
          rw [h]
        | cons z zs =>
          simp only [joinSlash] at h
          have hx' := of_decide_eq_true hgx.1
          refine absurd ?_ hx'.2
          rw [h]
          exact List.mem_append_right _ (List.mem_cons_self _ _)
      | cons w ws =>
        cases ys' with
        | nil =>
          simp only [joinSlash] at h
          have hy' := of_decide_eq_true hgy.1
          refine absurd ?_ hy'.2
          rw [← h]
          exact List.mem_append_right _ (List.mem_cons_self _ _)
        | cons z zs =>
          simp only [joinSlash] at h
          have hxne := of_decide_eq_true hgx.1
          have hyne := of_decide_eq_true hgy.1
          obtain ⟨hxy, hrest⟩ := slashfree_append_inj x y _ _ hxne.2
            hyne.2 h
          have htail := ih (z :: zs) hgx.2 hgy.2 hrest
          rw [hxy, htail]

lemma lookupC_mem : ∀ (cache : List (Str × List Nat)) (key : Str)
    (v : List Nat), lookupC cache key = some v → (key, v) ∈ cache := by
  intro cache
  induction cache with
  | nil =>
    intro key v h
    cases h
  | cons p rest ih =>
    intro key v h
    cases p with
    | mk k' v' =>
      rw [lookupC] at h
      by_cases hk : k' = key
      · rw [if_pos hk] at h
        injection h with hv
        rw [← hk, ← hv]
        exact List.mem_cons_self _ _
      · rw [if_neg hk] at h
        exact List.mem_cons_of_mem _ (ih key v h)

/-- Core of C8: with a valid cache, the cached recursion returns exactly the
cache-free result, and the cache stays valid. -/
lemma nextStatesCF_ok (nfa : Nfa) (start : List Nat) :
    ∀ (n : Nat) (segs : List Str) (cache : List (Str × List Nat)),
      segs.length = n → CacheOK nfa start cache → goodPath segs = true →
      (nextStatesCF nfa n segs start cache).1 = nfa.nextStates segs start ∧
      CacheOK nfa start (nextStatesCF nfa n segs start cache).2 := by
  intro n
  induction n with
  | zero =>
    intro segs cache hlen hok hgood
    have hnil : segs = [] := List.length_eq_zero.mp hlen
    subst hnil
    exact ⟨rfl, hok⟩
  | succ n ih =>
    intro segs cache hlen hok hgood
    cases segs with
    | nil => cases hlen
    | cons s ss =>
      have hne : (s :: ss) ≠ [] := List.cons_ne_nil s ss
      obtain ⟨sub, lastv, hsnoc⟩ : ∃ sub lastv, s :: ss = sub ++ [lastv] :=
        ⟨(s :: ss).dropLast, (s :: ss).getLast hne,
          (List.dropLast_append_getLast hne).symm⟩
      have hdl : (s :: ss).dropLast = sub := by
        rw [hsnoc, List.dropLast_concat]
      have hgl : (s :: ss).getLastD [] = lastv := by
        rw [hsnoc, List.getLastD_concat]
      have hsublen : sub.length = n := by
        rw [hsnoc] at hlen
        simp only [List.length_append, List.length_cons, List.length_nil]
          at hlen
        omega
      have hgoodsub : goodPath sub = true := by
        rw [hsnoc] at hgood
        simp only [goodPath, List.all_append, Bool.and_eq_true] at hgood
        exact hgood.1
      have hstep : ∀ v, v = nfa.nextStates sub start →
          nfa.stepStates v lastv = nfa.nextStates (s :: ss) start := by
        intro v hv
        rw [hsnoc, Nfa.nextStates, List.foldl_append, List.foldl_cons,
          List.foldl_nil, hv]
        rfl
      rw [nextStatesCF, hdl, hgl]
      cases hlook : lookupC cache (joinSlash sub) with
      | some v =>
        obtain ⟨segs2, hg2, hj2, hv2⟩ :=
          hok (joinSlash sub) v (lookupC_mem cache (joinSlash sub) v hlook)
        have hseq : segs2 = sub := joinSlash_inj segs2 sub hg2 hgoodsub hj2
        rw [hseq] at hv2
        exact ⟨hstep v hv2, hok⟩
      | none =>
        have ihres := ih sub cache hsublen hok hgoodsub
        refine ⟨hstep _ ihres.1, ?_⟩
        intro k v hmem
        rcases List.mem_cons.mp hmem with hhead | htail
        · have hk : k = joinSlash sub := congrArg Prod.fst hhead
          have hv : v = (nextStatesCF nfa n sub start cache).1 :=
            congrArg Prod.snd hhead
          exact ⟨sub, hgoodsub, hk.symm, by rw [hv, ihres.1]⟩
        · exact ihres.2 k v htail

/-! ## Claim theorems: ruleset layering -/

/-- C1. For every `RuleSet` and path, `matching_rule` is `none` exactly when
no pattern matches, and otherwise returns the rule whose pattern id is the
maximum matching id; `owners` returns the winning rule's owner list exactly
when it is non-empty, and is `none` both when the winning rule's owner list
is empty and when no rule matches (so the two cases are indistinguishable
through `owners`). -/
theorem ruleset_matching_rule_max_owners (rs : RuleSet) (segs : List Str) :
    (rs.matchingRule segs = none ↔ rs.nfa.matchingPatterns segs = []) ∧
    (∀ i, i ∈ rs.nfa.matchingPatterns segs →
        (∀ j ∈ rs.nfa.matchingPatterns segs, j ≤ i) →
        rs.matchingRule segs = some (rs.rules.getD i default)) ∧
    (rs.owners segs = none ↔
        (rs.matchingRule segs = none ∨
         ∃ r, rs.matchingRule segs = some r ∧ r.owners = [])) ∧
    (∀ l, rs.owners segs = some l ↔
        (l ≠ [] ∧ ∃ r, rs.matchingRule segs = some r ∧ r.owners = l)) := by
  refine ⟨?_, ?_, ?_, ?_⟩
  · rw [RuleSet.matchingRule, Option.map_eq_none', listMax_eq_none_iff]
  · intro i hi hmax
    rw [RuleSet.matchingRule, listMax_eq_some _ i hi hmax, Option.map_some']
  · rw [RuleSet.owners]
    cases h : rs.matchingRule segs with
    | none => simp
    | some r =>
      by_cases hr : r.owners.isEmpty
      · rw [List.isEmpty_iff] at hr
        simp [hr]
      · rw [List.isEmpty_iff] at hr
        simp [hr]
  · intro l
    rw [RuleSet.owners]
    cases h : rs.matchingRule segs with
    | none => simp
    | some r =>
      by_cases hr : r.owners.isEmpty
      · rw [List.isEmpty_iff] at hr
        simp [hr]
      · rw [List.isEmpty_iff] at hr
        rw [Option.some_bind, if_neg (by simpa using hr)]
        constructor
        · intro he
          injection he with he
          subst he
          exact ⟨hr, r, rfl, rfl⟩
        · rintro ⟨-, r', he, ho⟩
          injection he with he
          subst he
          rw [ho]

/-- Sample owners and rules used by concrete query instances. -/
def atA : Owner := ⟨"@a".toList, OwnerKind.User⟩

def atB : Owner := ⟨"@b".toList, OwnerKind.User⟩

def scriptRules : List Rule :=
  [⟨"/script/foo".toList, [atA]⟩, ⟨"script/foo".toList, [atB]⟩]

/-- C1 witness: on the two-rule ruleset, for path `script/foo` both patterns
match and the maximal id 1 wins. -/
theorem ruleset_matching_rule_max_owners_witness :
    (RuleSet.new scriptRules).matchingRule (["script", "foo"].map String.toList) =
      some ((RuleSet.new scriptRules).rules.getD 1 default) :=
  (ruleset_matching_rule_max_owners (RuleSet.new scriptRules)
      (["script", "foo"].map String.toList)).2.1 1 (by decide) (by decide)

/-- C3 counterexample: with rules `/script/foo @a` and `script/foo @b`, the
query for `bar/script/foo` returns no owners, not `[@b]` — the unanchored
multi-segment pattern `script/foo` is root-anchored and does not match. -/
theorem script_foo_unanchored_counterexample :
    (RuleSet.new scriptRules).owners (["bar", "script", "foo"].map String.toList) = none ∧
    ¬ (RuleSet.new scriptRules).owners (["bar", "script", "foo"].map String.toList) =
        some [atB] := by
  constructor <;> decide

/-- C3 (amended): for the two-rule file `/script/foo @a`, `script/foo @b`,
no pattern matches `bar/script/foo` so `owners` is `none`; on `script/foo`
both match and `owners` is `[@b]`. -/
theorem script_foo_owners_queries :
    (RuleSet.new scriptRules).nfa.matchingPatterns
        (["bar", "script", "foo"].map String.toList) = [] ∧
    (RuleSet.new scriptRules).owners (["bar", "script", "foo"].map String.toList) = none ∧
    (RuleSet.new scriptRules).owners (["script", "foo"].map String.toList) = some [atB] := by
  refine ⟨by decide, by decide, by decide⟩

/-- C2. Anchoring by segment count (`builder.rs` lines 58-62): with no
leading slash, a single-segment pattern prepends an epsilon edge at the
start state and a multi-segment pattern starts from the root state
unchanged; behaviourally, the floating pattern `foo` matches at depth 3
while the unanchored multi-segment `script/foo` matches only from the root. -/
theorem builder_anchoring (nfa : Nfa) (segments : List Str) :
    (segments.length = 1 →
        Builder.startState nfa false segments = nfa.addEpsilonTransition 0) ∧
    (segments.length ≠ 1 → Builder.startState nfa false segments = (nfa, 0)) ∧
    (Builder.startState nfa true segments = (nfa, 0)) ∧
    (buildNfa ["foo".toList]).matchingPatterns
        (["bar", "baz", "foo"].map String.toList) = [0] ∧
    (buildNfa ["script/foo".toList]).matchingPatterns
        (["bar", "script", "foo"].map String.toList) = [] ∧
    (buildNfa ["script/foo".toList]).matchingPatterns
        (["script", "foo"].map String.toList) = [0] := by
  refine ⟨fun h => ?_, fun h => ?_, ?_, by decide, by decide, by decide⟩
  · simp [Builder.startState, h]
  · simp [Builder.startState, h]
  · simp [Builder.startState]

/-- C2 witness: the single-segment unanchored branch taken at a concrete
builder state. -/
theorem builder_anchoring_witness :
    Builder.startState Nfa.new false ["foo".toList] =
      Nfa.new.addEpsilonTransition 0 :=
  (builder_anchoring Nfa.new ["foo".toList]).1 (by decide)

/-- C9 counterexample: for the single pattern `**/b` and path `b/b`, the
final active multiset visits the terminal state twice and
`matching_patterns` returns the duplicated list `[0, 0]`. -/
theorem matching_patterns_duplicates :
    (buildNfa ["**/b".toList]).matchingPatterns (["b", "b"].map String.toList) = [0, 0] ∧
    ¬ ((buildNfa ["**/b".toList]).matchingPatterns
        (["b", "b"].map String.toList)).Nodup := by
  constructor <;> decide

/-- C9 (amended): the terminal-union step is multiset-valued, not
set-valued — duplicates in the final active states propagate — but as a set
the result is exact: a pattern id is returned iff some final active state is
terminal for it. -/
theorem matching_patterns_membership (n : Nfa) (segs : List Str) (p : Nat) :
    p ∈ n.matchingPatterns segs ↔
      ∃ sid, sid ∈ n.finalStates segs ∧ p ∈ (n.state sid).terminal_for_patterns :=
  mem_matchingPatterns n segs p

/-- C7. Every NFA produced by a sequence of `Builder::add` calls satisfies
the three structural invariants: per (state, segment) label uniqueness —
with the sole exception that a state carrying a `*` self-loop (which only
epsilon-target states do) may carry one further `*` transition; every
epsilon-target state has a `*` self-loop; and no state has more than one
epsilon target. -/
theorem nfa_structural_invariants (pats : List Str) :
    (∀ sid g, g ≠ star →
        (((buildNfa pats).state sid).transitions.filter
          (fun t => t.path_segment = g)).length ≤ 1) ∧
    (∀ sid,
        (((buildNfa pats).state sid).transitions.filter
          (fun t => t.path_segment = star && t.target ≠ sid)).length ≤ 1 ∧
        (((buildNfa pats).state sid).transitions.filter
          (fun t => t.path_segment = star && t.target = sid)).length ≤ 1 ∧
        ((∃ t ∈ ((buildNfa pats).state sid).transitions, t.target = sid) →
          ∃ src, ((buildNfa pats).state src).epsilon_transition = some sid)) ∧
    (∀ sid e, ((buildNfa pats).state sid).epsilon_transition = some e →
        (⟨star, e⟩ : Transition) ∈ ((buildNfa pats).state e).transitions) ∧
    (∀ sid, (((buildNfa pats).state sid).epsilon_transition).toList.length ≤ 1) := by
  have hok := buildNfa_ok pats
  have inv : NfaInv (buildNfa pats) := hok.inv
  refine ⟨?_, ?_, ?_, ?_⟩
  · intro sid g hg
    have hcong : ((buildNfa pats).state sid).transitions.filter
          (fun t => t.path_segment = g) =
        ((buildNfa pats).state sid).transitions.filter
          (fun t => t.path_segment = g && t.target ≠ sid) := by
      apply List.filter_congr
      intro t ht
      by_cases hseg : t.path_segment = g
      · have htg : t.target ≠ sid := by
          intro hc
          have := inv.self_star sid t ht hc
          rw [this] at hseg
          exact hg hseg.symm
        simp [hseg, htg]
      · simp [hseg]
    rw [hcong]
    exact inv.nonself_unique sid g
  · intro sid
    refine ⟨?_, ?_, ?_⟩
    · exact le_trans (le_of_eq (by
        apply congrArg List.length
        apply List.filter_congr
        intro t ht
        by_cases hseg : t.path_segment = star
        · simp [hseg]
        · have : t.target ≠ sid := fun hc => hseg (inv.self_star sid t ht hc)
          simp [hseg, this])) (inv.nonself_unique sid star)
    · refine le_trans (le_of_eq ?_) (inv.self_unique sid)
      apply congrArg List.length
      apply List.filter_congr
      intro t ht
      by_cases htg : t.target = sid
      · have := inv.self_star sid t ht htg
        simp [this, htg]
      · simp [htg]
    · rintro ⟨t, ht, htgt⟩
      exact inv.self_eps_target sid t ht htgt
  · intro sid e heps
    exact inv.eps_self_loop sid e heps
  · intro sid
    cases ((buildNfa pats).state sid).epsilon_transition <;> simp

/-- C7 witness: the invariants hold at a concrete two-pattern build, where
an epsilon-target state indeed carries both its self-loop and a second `*`
transition. -/
theorem nfa_structural_invariants_witness :
    (((buildNfa (["foo/**", "foo/**/bar"].map String.toList)).state 2).transitions.filter
      (fun t => t.path_segment = ("x".toList))).length ≤ 1 :=
  (nfa_structural_invariants (["foo/**", "foo/**/bar"].map String.toList)).1 2
    ("x".toList) (by decide)

/-- C10. Every pattern id the matcher reports for a `RuleSet` built from
`rules` is strictly below `rules.len()`, so the rule-vector indexing in
`matching_rule`, `owners`, and `all_matching_rules` is always in bounds. -/
theorem rule_index_in_bounds (rules : List Rule) (segs : List Str) :
    ∀ i ∈ (RuleSet.new rules).nfa.matchingPatterns segs, i < rules.length := by
  intro i hi
  obtain ⟨sid, -, hterm⟩ := (mem_matchingPatterns _ segs i).mp hi
  have hok := buildNfa_ok (rules.map Rule.pattern)
  have hb : i < (rules.map Rule.pattern).length := hok.tbound sid i hterm
  simpa using hb

/-- C10 witness: at a concrete ruleset and path, the reported winning id is
below the rule count. -/
theorem rule_index_in_bounds_witness : 1 < scriptRules.length :=
  rule_index_in_bounds scriptRules (["script", "foo"].map String.toList) 1 (by decide)

/-- C4. First conjunct: a compiled pattern whose final segment is not
literally `*` matches recursively — every extension of a matching path also
matches, over arbitrary pattern sets.  Second conjunct: a single compiled
anchored `**`-free pattern whose final segment is literally `*` (and no
trailing slash) matches exactly the paths that extend its prefix by one
segment — the path has exactly as many segments as the pattern, matching
every pattern segment before the final `*`. -/
theorem terminal_star_semantics :
    (∀ (pats : List Str) (id : Nat) (p : Str) (segs more : List Str),
      pats.get? id = some p → (patSegments p).getLast? ≠ some star →
      id ∈ (buildNfa pats).matchingPatterns segs →
      id ∈ (buildNfa pats).matchingPatterns (segs ++ more)) ∧
    (∀ (p : Str) (path : List Str),
      ((stripLead p).2 = true ∨ (patSegments p).length ≠ 1) →
      ¬ star2 ∈ patSegments p →
      (stripTrail (stripLead p).1).2 = false →
      (patSegments p).getLast? = some star →
      (0 ∈ (buildNfa [p]).matchingPatterns path ↔
        (path.length = (patSegments p).length ∧
         ∀ i, i + 1 < (patSegments p).length →
           segMatch ((patSegments p).getD i []) (path.getD i []) = true))) := by
  constructor
  · exact nonstar_pattern_recursive
  · intro p path hanch hstar2 htrail hlast
    have hb : buildNfa [p] = nfaB (patSegments p) := by
      have h := add_shapeB p hanch hstar2 htrail hlast
      rw [buildNfa, List.foldl_cons, List.foldl_nil, h]
    rw [hb, shapeB_matching _ (patSegments_ne_nil p) path]
    constructor
    · rintro ⟨hlen, hpm⟩
      refine ⟨hlen, ?_⟩
      intro i hi
      have := (pmAll_iff _ 0 path).mp hpm i (by omega)
      simpa using this
    · rintro ⟨hlen, hall⟩
      refine ⟨hlen, ?_⟩
      rw [pmAll_iff]
      intro i hi
      simp only [Nat.zero_add]
      by_cases hcase : i + 1 < (patSegments p).length
      · exact hall i hcase
      · have hidx : i = (patSegments p).length - 1 := by omega
        have hstar : (patSegments p).getD i [] = star := by
          rw [hidx]
          exact getLast?_getD _ _ hlast
        rw [hstar, segMatch_star]

/-- C4 witness: `foo` (non-`*` terminal) matches `foo/bar` once it matches
`foo`; `/mammals/*` matches exactly the two-segment paths under
`mammals`. -/
theorem terminal_star_semantics_witness :
    0 ∈ (buildNfa ["foo".toList]).matchingPatterns (["foo".toList] ++ ["bar".toList]) ∧
    (0 ∈ (buildNfa ["/mammals/*".toList]).matchingPatterns
        (["mammals", "equus"].map String.toList) ↔
      ((["mammals", "equus"].map String.toList).length =
          (patSegments "/mammals/*".toList).length ∧
       ∀ i, i + 1 < (patSegments "/mammals/*".toList).length →
         segMatch ((patSegments "/mammals/*".toList).getD i [])
           ((["mammals", "equus"].map String.toList).getD i []) = true)) :=
  ⟨terminal_star_semantics.1 ["foo".toList] 0 "foo".toList
      ["foo".toList] ["bar".toList] (by decide) (by decide) (by decide),
   terminal_star_semantics.2 "/mammals/*".toList
      (["mammals", "equus"].map String.toList) (by decide) (by decide)
      (by decide) (by decide)⟩

lemma pmC_as_pmL (L path : List Str) (h : L.length + 1 ≤ path.length) :
    pmAll (L ++ [star]) 0 (path.take (L.length + 1)) =
      pmAll L 0 (path.take L.length) := by
  have hsub : L.length < path.length := by omega
  rw [take_succ_getD path L.length hsub, pmAll_snoc, Nat.zero_add,
    length_take_of_le path L.length (by omega)]
  have hgd : (L ++ [star]).getD L.length [] = star := by
    rw [getD_append_self]
    rfl
  rw [hgd, segMatch_star, Bool.and_true]
  exact pmAll_append_left L [star] 0 (path.take L.length)
    (by rw [Nat.zero_add, length_take_of_le path L.length (by omega)])

/-- A state that already carries a `*` self-loop absorbs an epsilon edge:
`add_epsilon_transition` returns it unchanged (`builder.rs` lines 76-81). -/
lemma addEps_selfLoop_id (n : Nfa) (k : Nat) (h : selfLoop n k) :
    n.addEpsilonTransition k = (n, k) := by
  rw [Nfa.addEpsilonTransition,
    if_pos (List.any_eq_true.mpr ⟨⟨star, k⟩, h, by simp⟩)]

/-- After folding a segment list whose last segment is `**`, the reached
state carries a `*` self-loop (it is the result of an
`add_epsilon_transition`). -/
lemma foldSegs_selfLoop_of_last_star2 (L : List Str) (n : Nfa) (k : Nat)
    (inv : NfaInv n) (hk : k < n.states.length)
    (hlast : L.getLast? = some star2) :
    selfLoop (L.foldl Builder.addSegment (n, k)).1
      (L.foldl Builder.addSegment (n, k)).2 := by
  have hne : L ≠ [] := by
    intro hc
    rw [hc] at hlast
    cases hlast
  have hgl : L.getLast hne = star2 := by
    have hq := List.getLast?_eq_getLast L hne
    rw [hq] at hlast
    exact Option.some.inj hlast
  have hL : L = L.dropLast ++ [star2] := by
    rw [← hgl]
    exact (List.dropLast_append_getLast hne).symm
  rw [hL, List.foldl_append, List.foldl_cons, List.foldl_nil,
    Builder.addSegment, if_pos rfl]
  obtain ⟨inv1, -, hk1, -, -⟩ := foldSegments_ok L.dropLast n k inv hk
  exact (addEpsilonTransition_ok _ _ inv1 hk1).2.2.2.2.2

/-- For an anchored pattern whose final segment is `**`, appending `/` and
appending `/**` compile to literally identical NFAs: the trailing `**` gets
the same extra `*` transition a trailing slash gets, and the appended `**`
segment is absorbed by the self-loop already present at the end of the
fold. -/
lemma add_trailing_doublestar (p : Str) (hp : p ≠ [])
    (hslash : p.getLast? ≠ some '/')
    (hanch : (stripLead p).2 = true ∨ (patSegments p).length ≠ 1)
    (hlast2 : (patSegments p).getLast? = some star2) :
    Builder.new.add (p ++ ['/']) = Builder.new.add (p ++ '/' :: star2) := by
  have hq := stripLead_append p ['/'] hp
  have hq2 := stripTrail_slash (stripLead p).1
  have hq' := stripLead_append p ('/' :: star2) hp
  have hq2' : stripTrail ((stripLead p).1 ++ '/' :: star2) =
      ((stripLead p).1 ++ '/' :: star2, false) := by
    apply stripTrail_id
    rw [getLast?_append_cons]
    decide
  have hL : patSegments p = splitSlash (stripLead p).1 := by
    rw [patSegments, stripTrail_id _ (stripLead_getLast p hslash)]
  have hsegs : splitSlash ((stripLead p).1 ++ '/' :: star2) =
      patSegments p ++ [star2] := by
    rw [splitSlash_append, splitSlash_star2, hL]
  have hsl : selfLoop
      ((patSegments p).foldl Builder.addSegment (Nfa.new, 0)).1
      ((patSegments p).foldl Builder.addSegment (Nfa.new, 0)).2 :=
    foldSegs_selfLoop_of_last_star2 (patSegments p) Nfa.new 0 nfaInv_new
      (by simp [Nfa.new]) hlast2
  have e1L : Builder.startState Builder.new.nfa (stripLead (p ++ ['/'])).2
      (splitSlash (stripTrail (stripLead (p ++ ['/'])).1).1) =
      (Nfa.new, 0) := by
    rw [hq]
    dsimp only
    rw [hq2]
    dsimp only
    rw [← hL]
    exact startState_root _ _ _ hanch
  have e1R : Builder.startState Builder.new.nfa
      (stripLead (p ++ '/' :: star2)).2
      (splitSlash (stripTrail (stripLead (p ++ '/' :: star2)).1).1) =
      (Nfa.new, 0) := by
    rw [hq']
    dsimp only
    rw [hq2']
    dsimp only
    rw [hsegs]
    apply startState_root
    right
    have hpos : 1 ≤ (patSegments p).length :=
      List.length_pos.mpr (patSegments_ne_nil p)
    simp only [List.length_append, List.length_cons, List.length_nil]
    omega
  have e2L : (splitSlash (stripTrail (stripLead (p ++ ['/'])).1).1).foldl
      Builder.addSegment (Nfa.new, 0) =
      (patSegments p).foldl Builder.addSegment (Nfa.new, 0) := by
    rw [hq]
    dsimp only
    rw [hq2]
    dsimp only
    rw [← hL]
  have e2R : (splitSlash (stripTrail (stripLead
      (p ++ '/' :: star2)).1).1).foldl Builder.addSegment (Nfa.new, 0) =
      (patSegments p).foldl Builder.addSegment (Nfa.new, 0) := by
    rw [hq']
    dsimp only
    rw [hq2']
    dsimp only
    rw [hsegs, List.foldl_append, List.foldl_cons, List.foldl_nil,
      Builder.addSegment, if_pos rfl, addEps_selfLoop_id _ _ hsl]
  have hTail : Builder.addTail
      ((patSegments p).foldl Builder.addSegment (Nfa.new, 0)).1
      ((patSegments p).foldl Builder.addSegment (Nfa.new, 0)).2
      true (patSegments p) =
      Builder.addTail
      ((patSegments p).foldl Builder.addSegment (Nfa.new, 0)).1
      ((patSegments p).foldl Builder.addSegment (Nfa.new, 0)).2
      false (patSegments p ++ [star2]) := by
    rw [Builder.addTail, Builder.addTail, hlast2, List.getLast?_concat]
    simp
  have e3L : Builder.addTail
      ((patSegments p).foldl Builder.addSegment (Nfa.new, 0)).1
      ((patSegments p).foldl Builder.addSegment (Nfa.new, 0)).2
      (stripTrail (stripLead (p ++ ['/'])).1).2
      (splitSlash (stripTrail (stripLead (p ++ ['/'])).1).1) =
      Builder.addTail
      ((patSegments p).foldl Builder.addSegment (Nfa.new, 0)).1
      ((patSegments p).foldl Builder.addSegment (Nfa.new, 0)).2
      true (patSegments p) := by
    rw [hq]
    dsimp only
    rw [hq2]
    dsimp only
    rw [← hL]
  have e3R : Builder.addTail
      ((patSegments p).foldl Builder.addSegment (Nfa.new, 0)).1
      ((patSegments p).foldl Builder.addSegment (Nfa.new, 0)).2
      (stripTrail (stripLead (p ++ '/' :: star2)).1).2
      (splitSlash (stripTrail (stripLead (p ++ '/' :: star2)).1).1) =
      Builder.addTail
      ((patSegments p).foldl Builder.addSegment (Nfa.new, 0)).1
      ((patSegments p).foldl Builder.addSegment (Nfa.new, 0)).2
      true (patSegments p) := by
    rw [hq']
    dsimp only
    rw [hq2']
    dsimp only
    rw [hsegs]
    exact hTail.symm
  rw [Builder.add, Builder.add, e1L, e1R, e2L, e2R, e3L, e3R]

/-- C5 is false as stated: for `P = "foo"`, the pattern `foo/` is unanchored
(it matches `bar/foo/x`) while `foo/**` is multi-segment and thus anchored
(it does not); for `P = "/a/*"`, the pattern `/a/*/` keeps the `*`-terminal
non-recursive semantics (it does not match `a/x/y/z`) while `/a/*/**`
matches recursively (it does). -/
theorem trailing_slash_not_equiv_double_star :
    (0 ∈ (buildNfa [("foo/").toList]).matchingPatterns
        [("bar").toList, ("foo").toList, ("x").toList] ∧
     0 ∉ (buildNfa [("foo/**").toList]).matchingPatterns
        [("bar").toList, ("foo").toList, ("x").toList]) ∧
    (0 ∈ (buildNfa [("/a/*/**").toList]).matchingPatterns
        [("a").toList, ("x").toList, ("y").toList, ("z").toList] ∧
     0 ∉ (buildNfa [("/a/*/").toList]).matchingPatterns
        [("a").toList, ("x").toList, ("y").toList, ("z").toList]) :=
  ⟨⟨by decide, by decide⟩, by decide, by decide⟩

/-- C5 (amended). For an anchored pattern `P` (leading slash or several
segments) that does not end in `/`, the patterns `P + "/"` and `P + "/**"`,
compiled each on its own, match identically in the two proven regimes.
First conjunct: if `P` has no `**` segment and its final segment is not
literally `*`, the two compiled NFAs match exactly the same paths — those
with at least one more segment than `P` whose first `|P|` segments match
`P`'s segments one-to-one.  Second conjunct: if `P`'s final segment is
`**`, the two patterns compile to literally identical NFAs (the builder
adds the same extra `*` transition for a terminal `**` as for a trailing
slash, and the appended `**` is absorbed by the existing self-loop), so
they match the same paths trivially.  The original claim fails only at the
anchoring and `*`-terminal edges exhibited by the counterexample. -/
theorem trailing_slash_vs_double_star (p : Str) (hp : p ≠ [])
    (hslash : p.getLast? ≠ some '/')
    (hanch : (stripLead p).2 = true ∨ (patSegments p).length ≠ 1) :
    (∀ path, ¬ star2 ∈ patSegments p →
      (patSegments p).getLast? ≠ some star →
      (0 ∈ (buildNfa [p ++ ['/']]).matchingPatterns path ↔
       0 ∈ (buildNfa [p ++ '/' :: star2]).matchingPatterns path)) ∧
    ((patSegments p).getLast? = some star2 →
      buildNfa [p ++ ['/']] = buildNfa [p ++ '/' :: star2]) := by
  constructor
  · intro path hstar2 hlast
    have hC : buildNfa [p ++ ['/']] = nfaC (patSegments p) := by
      rw [buildNfa, List.foldl_cons, List.foldl_nil,
        add_shapeC p hp hslash hanch hstar2 hlast]
    have hD : buildNfa [p ++ '/' :: star2] = nfaD (patSegments p) := by
      rw [buildNfa, List.foldl_cons, List.foldl_nil,
        add_shapeD p hp hslash hstar2]
    rw [hC, hD, shapeC_matching (patSegments p) path,
      shapeD_matching (patSegments p) path (patSegments_ne_nil p)]
    constructor
    · rintro ⟨h1, h2⟩
      rw [pmC_as_pmL (patSegments p) path h1] at h2
      exact ⟨h1, h2⟩
    · rintro ⟨h1, h2⟩
      rw [← pmC_as_pmL (patSegments p) path h1] at h2
      exact ⟨h1, h2⟩
  · intro hlast2
    rw [buildNfa, buildNfa, List.foldl_cons, List.foldl_cons,
      List.foldl_nil, List.foldl_nil,
      add_trailing_doublestar p hp hslash hanch hlast2]

/-- C5 (amended) witness: for `P = "/foo"`, the patterns `/foo/` and
`/foo/**` agree on the path `foo/x`; for `P = "/a/**"`, the patterns
`/a/**/` and `/a/**/**` compile to the same NFA. -/
theorem trailing_slash_vs_double_star_witness :
    (0 ∈ (buildNfa [("/foo").toList ++ ['/']]).matchingPatterns
        [("foo").toList, ("x").toList] ↔
     0 ∈ (buildNfa [("/foo").toList ++ '/' :: star2]).matchingPatterns
        [("foo").toList, ("x").toList]) ∧
    buildNfa [("/a/**").toList ++ ['/']] =
      buildNfa [("/a/**").toList ++ '/' :: star2] :=
  ⟨(trailing_slash_vs_double_star ("/foo").toList (by decide) (by decide)
      (by decide)).1 [("foo").toList, ("x").toList] (by decide) (by decide),
   (trailing_slash_vs_double_star ("/a/**").toList (by decide) (by decide)
      (by decide)).2 (by decide)⟩

lemma ownerScan_pos (src : Str) (pos : Nat) :
    (ownerScan src pos).2.2 = pos + utf8Len (ownerScan src pos).1 := by
  induction src generalizing pos with
  | nil => simp [ownerScan, utf8Len]
  | cons c cs ih =>
    rw [ownerScan]
    by_cases h : c = ' ' ∨ c = '\t' ∨ c = '#' ∨ c = '\r' ∨ c = '\n'
    · rw [if_pos h]
      simp [utf8Len]
    · rw [if_neg h]
      dsimp only
      rw [ih (pos + c.utf8Size)]
      simp only [utf8Len, List.map_cons, List.sum_cons]
      omega

/-- C6 is false as stated: after the invalid owner `bad`, the owner loop
stops, so the remaining owner token `@y` on the same line is never parsed;
the next character is then a space rather than a line terminator, so
`parse_rule` fails with `expected newline` and the whole parse aborts —
neither the rule for `a` nor the subsequent rule `b @z` is produced. -/
theorem invalid_owner_aborts_parse :
    parse ("a @x bad @y\nb @z").toList =
      ⟨[], [⟨("invalid owner: bad").toList, ⟨5, 8⟩⟩,
            ⟨("expected newline").toList, ⟨8, 8⟩⟩]⟩ := by
  decide

/-- C6 (amended). First conjunct: whenever the owner scanner reads a
non-empty token that fails classification, `parse_owner` returns no owner,
records exactly one error whose message is `invalid owner: ` followed by
the token and whose span covers exactly the token's bytes, and leaves the
parser right after the token; the owner loop then stops at this `none`
(remaining owner tokens of the line are not parsed, and the rule is only
produced if the loop stopped at a line terminator, EOF, or comment).
Second conjunct: parsing `foo bar` yields one rule with pattern `foo`
spanning bytes 0-3 and no owners, plus the single error
`invalid owner: bar` spanning bytes 4-7. -/
theorem invalid_owner_error_scoped :
    (∀ (src : Str) (pos : Nat),
      (ownerScan src pos).1 ≠ [] →
      ownerTryFrom (ownerScan src pos).1 = none →
      parseOwner src pos =
        ((none, [⟨("invalid owner: ").toList ++ (ownerScan src pos).1,
            ⟨pos, pos + utf8Len (ownerScan src pos).1⟩⟩]),
         (ownerScan src pos).2.1, pos + utf8Len (ownerScan src pos).1)) ∧
    parse ("foo bar").toList =
      ⟨[⟨⟨("foo").toList, ⟨0, 3⟩⟩, [], [], none⟩],
       [⟨("invalid owner: bar").toList, ⟨4, 7⟩⟩]⟩ := by
  constructor
  · intro src pos h1 h2
    rw [parseOwner]
    rw [if_neg h1, h2, ownerScan_pos src pos]
  · decide

/-- C6 (amended) witness: at the concrete state reached after `foo ` in
`foo bar`, the invalid token `bar` produces exactly the error
`invalid owner: bar` with span 4-7 and no owner. -/
theorem invalid_owner_error_scoped_witness :
    parseOwner ("bar").toList 4 =
      ((none, [⟨("invalid owner: bar").toList, ⟨4, 7⟩⟩]), [], 7) :=
  invalid_owner_error_scoped.1 ("bar").toList 4 (by decide) (by decide)

/-- C8. The prefix cache is observationally transparent and each query is
deterministic: for every compiled NFA, every path whose components are
non-empty and `/`-free (as `Path::iter` yields for relative paths), and
every cache state reachable by earlier queries (`CacheOK`, preserved by the
second conjunct and trivially true of the initial empty cache),
`matching_patterns` returns exactly the result of the cache-free recursive
stepping of the NFA — so repeated calls agree regardless of what earlier
queries left in the cache. -/
theorem matcher_cache_transparent (nfa : Nfa)
    (cache : List (Str × List Nat)) (segs : List Str)
    (hok : CacheOK nfa nfa.initialStates cache)
    (hgood : goodPath segs = true) :
    (matchingPatternsC nfa segs cache).1 = nfa.matchingPatterns segs ∧
    CacheOK nfa nfa.initialStates (matchingPatternsC nfa segs cache).2 := by
  have h := nextStatesCF_ok nfa nfa.initialStates segs.length segs cache
    rfl hok hgood
  constructor
  · have h1 : (matchingPatternsC nfa segs cache).1 =
        (nextStatesCF nfa segs.length segs nfa.initialStates
          cache).1.flatMap (fun sid =>
            if (nfa.state sid).isTerminal then
              (nfa.state sid).terminal_for_patterns
            else []) := rfl
    rw [h1, h.1]
    rfl
  · have h2 : (matchingPatternsC nfa segs cache).2 =
        (nextStatesCF nfa segs.length segs nfa.initialStates cache).2 := rfl
    rw [h2]
    exact h.2

/-- C8 witness: on a concrete matcher, path, and the empty cache, the cached
query equals the cache-free one and leaves a valid cache. -/
theorem matcher_cache_transparent_witness :
    (matchingPatternsC (buildNfa [("foo").toList])
        [("foo").toList] []).1 =
      (buildNfa [("foo").toList]).matchingPatterns [("foo").toList] ∧
    CacheOK (buildNfa [("foo").toList])
      (buildNfa [("foo").toList]).initialStates
      (matchingPatternsC (buildNfa [("foo").toList]) [("foo").toList] []).2 :=
  matcher_cache_transparent (buildNfa [("foo").toList]) [] [("foo").toList]
    (fun k v h => absurd h (List.not_mem_nil _)) (by decide)

end CO
